import Mathlib

/-!
Verification of the mdtodo markdown todo manager (src/mdtodo/mdtodo.py).

The Python source is shallowly embedded: strings are lists of characters,
the todo-line regular expression
    - \[([ xX])\] (.+?)(?:\s+#(\w+))?\s*$
is embedded as a backtracking scanner with the exact semantics of the
Python re engine (shortest text first, tag group tried before being
skipped), sets become duplicate-free lists, dictionaries become
association lists keyed by an identity number (Python TodoItem objects
are compared by identity, so every created item gets a fresh id), and
file I/O becomes explicit lists of (name, content) pairs where an
unreadable file is an Option.none content.
-/

namespace MdTodo

/-- Python regex class \s for str patterns: the Unicode whitespace
characters, [ \t\n\r\f\v], the separators \x1c-\x1f, NEL, NBSP, and the
Unicode space and line/paragraph separators. -/
def pySpace (c : Char) : Bool :=
  decide (c ∈ [' ', '\t', '\n', '\r', '\x0b', '\x0c', '\x1c', '\x1d', '\x1e', '\x1f',
    '\x85', '\xa0', '\u1680', '\u2000', '\u2001', '\u2002', '\u2003', '\u2004',
    '\u2005', '\u2006', '\u2007', '\u2008', '\u2009', '\u200a', '\u2028', '\u2029',
    '\u202f', '\u205f', '\u3000'])

/-- Python regex class \w, embedded in its ASCII extent: letters, digits,
underscore.  The full class also admits non-ASCII word characters, so
statements that depend on \w-boundaries restrict texts to ASCII. -/
def pyWord (c : Char) : Bool := c.isAlphanum || c = '_'

/-- The line-boundary characters of Python str.splitlines; the two-
character boundary "\r\n" is handled by the splitter itself. -/
def lineBreak (c : Char) : Bool :=
  decide (c ∈ ['\n', '\r', '\x0b', '\x0c', '\x1c', '\x1d', '\x1e', '\x85', '\u2028',
    '\u2029'])

def allSpaces (l : List Char) : Bool := l.all pySpace

def allWord (l : List Char) : Bool := l.all pyWord

/-- The default category string "uncategorized". -/
def uncat : List Char := "uncategorized".data

/-- Matcher for the regex fragment \s+#(\w+)\s*$ : at least one
whitespace, a hash, a captured word, then only whitespace to the end.
Greedy \s+ then the literal # is equivalent to taking the maximal
whitespace run and requiring # right after it; greedy \w+ then \s*$ is
the maximal word run followed by whitespace only. -/
def matchTagSuffix (cs : List Char) : Option (List Char) :=
  if (cs.takeWhile pySpace).isEmpty then none
  else
    match cs.dropWhile pySpace with
    | [] => none
    | c :: r =>
      if c = '#' then
        if (r.takeWhile pyWord).isEmpty then none
        else if allSpaces (r.dropWhile pyWord) then some (r.takeWhile pyWord) else none
      else none

/-- Backtracking scan for (.+?)(?:\s+#(\w+))?\s*$ after the first text
character has been consumed into acc: the engine extends the non-greedy
text one character at a time; at each split it first tries the tag
group, then an all-whitespace remainder, and a text character must match
the dot (anything but a newline). Returns the captured text and the
optional tag. -/
def scanSplits : List Char → List Char → Option (List Char × Option (List Char))
  | acc, [] => some (acc.reverse, none)
  | acc, c :: rs =>
    match matchTagSuffix (c :: rs) with
    | some w => some (acc.reverse, some w)
    | none =>
      if allSpaces (c :: rs) then some (acc.reverse, none)
      else if c = '\n' then none
      else scanSplits (c :: acc) rs

/-- re.match of TODO_PATTERN = - \[([ xX])\] (.+?)(?:\s+#(\w+))?\s*$
against a line: the literal prefix, the mark class, then the scan.
Returns (done, text, tag) where done is mark.lower() == "x" as computed
at mdtodo.py line 87. -/
def matchTodoLine (cs : List Char) : Option (Bool × List Char × Option (List Char)) :=
  match cs with
  | a :: b :: c :: m :: d :: e :: f :: rs =>
    if a = '-' ∧ b = ' ' ∧ c = '[' ∧ (m = ' ' ∨ m = 'x' ∨ m = 'X') ∧ d = ']' ∧ e = ' ' then
      if f = '\n' then none
      else (scanSplits [f] rs).map fun p => (decide (m.toLower = 'x'), p.1, p.2)
    else none
  | _ => none

/-- A todo item: text, done flag, category (mdtodo.py TodoItem). -/
structure TodoItem where
  text : List Char
  done : Bool
  category : List Char
deriving DecidableEq

/-- TodoItem.__init__ applies the default: category or "uncategorized". -/
def mkTodoItem (text : List Char) (done : Bool) (category : List Char) : TodoItem :=
  ⟨text, done, if category = [] then uncat else category⟩

/-- TodoItem.toggle. -/
def TodoItem.toggle (t : TodoItem) : TodoItem := { t with done := !t.done }

/-- TodoItem.to_markdown: "- [mark] text" with a " #category" suffix when
the category is nonempty and not "uncategorized". -/
def TodoItem.toMarkdown (t : TodoItem) : List Char :=
  '-' :: ' ' :: '[' :: (if t.done then 'x' else ' ') :: ']' :: ' ' ::
    (t.text ++ if t.category ≠ [] ∧ t.category ≠ uncat then ' ' :: '#' :: t.category else [])

/-- One line of load_todos: the regex match mapped to a TodoItem, with
the missing tag defaulted to "uncategorized" (mdtodo.py line 88). -/
def parseLine (l : List Char) : Option TodoItem :=
  (matchTodoLine l).map fun p => mkTodoItem p.2.1 p.1 (p.2.2.getD [])

/-- Split at every line-boundary character, treating the pair "\r\n" as
a single boundary and keeping the (possibly empty) final segment. -/
def splitBreaks : List Char → List (List Char)
  | [] => [[]]
  | [c] => if lineBreak c then [[], []] else [[c]]
  | c :: c2 :: rs =>
    if c = '\r' ∧ c2 = '\n' then [] :: splitBreaks rs
    else if lineBreak c then [] :: splitBreaks (c2 :: rs)
    else
      match splitBreaks (c2 :: rs) with
      | [] => [[c]]
      | l :: ls => (c :: l) :: ls

/-- Python str.splitlines: split at every line boundary and drop the
final empty segment left by a trailing boundary (or empty content). -/
def splitLines (cs : List Char) : List (List Char) :=
  if (splitBreaks cs).getLast? = some [] then (splitBreaks cs).dropLast else splitBreaks cs

/-- All todo items recognized in a file content, in line order. -/
def parseContent (cs : List Char) : List TodoItem :=
  (splitLines cs).filterMap parseLine

/-! ## Grammar characterization of the line matcher

The claims describe the recognized lines by the grammar
    - [mark] text (#category)?
with the text being the remainder up to an optional trailing #tag
token.  The propositions below state that grammar directly: a valid
suffix after the text is either pure whitespace or a whitespace-
separated #word token followed by whitespace, and the text is the
shortest nonempty prefix admitting a valid suffix (the regex text group
is non-greedy). -/

/-- The suffix shape \s+#(\w+)\s* with captured word w. -/
def TagSuffixP (v w : List Char) : Prop :=
  ∃ sp sp2, v = sp ++ '#' :: (w ++ sp2) ∧ sp ≠ [] ∧ allSpaces sp = true ∧
    w ≠ [] ∧ allWord w = true ∧ allSpaces sp2 = true

/-- A valid remainder after the text: whitespace only (no tag), or a
trailing tag token. -/
def ValidSuffix (v : List Char) : Option (List Char) → Prop
  | none => allSpaces v = true
  | some w => TagSuffixP v w

/-- No parse of the remainder is possible at this split. -/
def NoValid (v : List Char) : Prop := ∀ g, ¬ ValidSuffix v g

/-- The grammar split of the part after "- [m] ": the nonempty text t,
a valid suffix yielding the optional tag g, and minimality (no shorter
nonempty text admits any valid suffix). -/
def GrammarSplit (rest t : List Char) (g : Option (List Char)) : Prop :=
  ∃ v, rest = t ++ v ∧ t ≠ [] ∧ ValidSuffix v g ∧
    ∀ u2 v2, rest = u2 ++ v2 → u2 ≠ [] → u2.length < t.length → NoValid v2

/-- The mark class [ xX]. -/
def markOk (m : Char) : Prop := m = ' ' ∨ m = 'x' ∨ m = 'X'

/-- A line matches the todo grammar with mark m, text t and optional
trailing tag g. -/
def MatchesGrammar (line : List Char) (m : Char) (t : List Char) (g : Option (List Char)) :
    Prop :=
  markOk m ∧ ∃ rest, line = '-' :: ' ' :: '[' :: m :: ']' :: ' ' :: rest ∧ GrammarSplit rest t g

lemma space_not_word {c : Char} (h : pySpace c = true) : pyWord c = false := by
  simp only [pySpace, decide_eq_true_eq] at h
  fin_cases h <;> decide

lemma break_not_word {c : Char} (h : lineBreak c = true) : pyWord c = false := by
  simp only [lineBreak, decide_eq_true_eq] at h
  fin_cases h <;> decide

lemma word_not_break {c : Char} (h : pyWord c = true) : lineBreak c = false := by
  cases hb : lineBreak c with
  | false => rfl
  | true => rw [break_not_word hb] at h; exact absurd h (by simp)

lemma word_not_space {c : Char} (h : pyWord c = true) : pySpace c = false := by
  cases hs : pySpace c with
  | false => rfl
  | true => rw [space_not_word hs] at h; exact absurd h (by simp)

lemma all_takeWhile (p : Char → Bool) (l : List Char) : (l.takeWhile p).all p = true := by
  induction l with
  | nil => rfl
  | cons c rs ih =>
    rw [List.takeWhile_cons]
    split
    · simp [*]
    · rfl

lemma takeWhile_all_append (p : Char → Bool) (a b : List Char) (ha : a.all p = true)
    (hb : ∀ c, b.head? = some c → p c = false) :
    (a ++ b).takeWhile p = a ∧ (a ++ b).dropWhile p = b := by
  induction a with
  | nil =>
    simp only [List.nil_append]
    cases b with
    | nil => exact ⟨rfl, rfl⟩
    | cons c bs =>
      have hc := hb c rfl
      rw [List.takeWhile_cons, List.dropWhile_cons]
      simp [hc]
  | cons c as ih =>
    simp only [List.all_cons, Bool.and_eq_true] at ha
    have := ih ha.2
    rw [List.cons_append, List.takeWhile_cons, List.dropWhile_cons]
    simp [ha.1, this.1, this.2]

lemma matchTagSuffix_some_iff (v w : List Char) :
    matchTagSuffix v = some w ↔ TagSuffixP v w := by
  constructor
  · intro h
    unfold matchTagSuffix at h
    split at h
    · exact absurd h (by simp)
    · rename_i hspne
      split at h
      · exact absurd h (by simp)
      · rename_i c r hrest
        split at h
        · rename_i hc
          subst hc
          split at h
          · exact absurd h (by simp)
          · rename_i hwne
            split at h
            · rename_i hrem
              rw [Option.some_inj] at h
              refine ⟨v.takeWhile pySpace, r.dropWhile pyWord, ?_, ?_, ?_, ?_, ?_, hrem⟩
              · have h1 := List.takeWhile_append_dropWhile (p := pySpace) (l := v)
                have h2 := List.takeWhile_append_dropWhile (p := pyWord) (l := r)
                conv_lhs => rw [← h1, hrest]
                rw [← h, h2]
              · intro hnil
                rw [hnil] at hspne
                exact hspne (by simp)
              · exact all_takeWhile _ _
              · rw [← h]
                intro hnil
                rw [hnil] at hwne
                exact hwne (by simp)
              · rw [← h]
                exact all_takeWhile _ _
            · exact absurd h (by simp)
        · exact absurd h (by simp)
  · rintro ⟨sp, sp2, hv, hspne, hspall, hwne, hwall, hsp2all⟩
    have hsplit := takeWhile_all_append pySpace sp ('#' :: (w ++ sp2)) hspall
      (by
        intro c hc
        simp only [List.head?_cons, Option.some_inj] at hc
        subst hc
        decide)
    have hsplit2 := takeWhile_all_append pyWord w sp2 hwall
      (by
        intro c hc
        cases sp2 with
        | nil => exact absurd hc (by simp)
        | cons d ds =>
          simp only [List.head?_cons, Option.some_inj] at hc
          subst hc
          simp only [allSpaces, List.all_cons, Bool.and_eq_true] at hsp2all
          exact space_not_word hsp2all.1)
    have hspE : sp.isEmpty = false := by
      cases sp with
      | nil => exact absurd rfl hspne
      | cons a as => rfl
    have hwE : w.isEmpty = false := by
      cases w with
      | nil => exact absurd rfl hwne
      | cons a as => rfl
    unfold matchTagSuffix
    rw [hv, hsplit.1, hsplit.2, hspE]
    simp [hsplit2.1, hsplit2.2, hwE, hsp2all]

lemma not_tagSuffixP_nil (w : List Char) : ¬ TagSuffixP [] w := by
  rintro ⟨sp, sp2, h, hne, -⟩
  rw [List.nil_eq, List.append_eq_nil] at h
  exact List.cons_ne_nil _ _ h.2

lemma tag_not_allSpaces {v w : List Char} (h : TagSuffixP v w) : allSpaces v = false := by
  rcases h with ⟨sp, sp2, hv, -, -, -, -, -⟩
  subst hv
  cases hall : allSpaces (sp ++ '#' :: (w ++ sp2)) with
  | false => rfl
  | true =>
    exfalso
    simp only [allSpaces, List.all_append, List.all_cons, Bool.and_eq_true] at hall
    exact absurd hall.2.1 (by decide)

lemma tagSuffixP_unique {v w w2 : List Char} (h1 : TagSuffixP v w) (h2 : TagSuffixP v w2) :
    w = w2 := by
  rw [← matchTagSuffix_some_iff] at h1 h2
  rw [h1, Option.some_inj] at h2
  exact h2

lemma noValid_of {v : List Char} (h1 : matchTagSuffix v = none) (h2 : allSpaces v = false) :
    NoValid v := by
  intro g hg
  cases g with
  | none => rw [hg] at h2; exact absurd h2 (by simp)
  | some w =>
    change TagSuffixP v w at hg
    rw [← matchTagSuffix_some_iff] at hg
    rw [hg] at h1
    exact absurd h1 (by simp)

/-- Characterization of the backtracking scan: it returns (t, g) exactly
when t extends the already-consumed text by the shortest newline-free
prefix of the remainder whose suffix parses as g, every strictly shorter
split admitting no valid suffix at all. -/
lemma scanSplits_some_iff (rest : List Char) : ∀ (acc t : List Char) (g : Option (List Char)),
    scanSplits acc rest = some (t, g) ↔
      ∃ u v, rest = u ++ v ∧ t = acc.reverse ++ u ∧ '\n' ∉ u ∧ ValidSuffix v g ∧
        ∀ u2 v2, rest = u2 ++ v2 → u2.length < u.length → NoValid v2 := by
  induction rest with
  | nil =>
    intro acc t g
    constructor
    · intro h
      simp only [scanSplits, Option.some_inj, Prod.mk.injEq] at h
      refine ⟨[], [], by simp, by simp [h.1.symm], by simp, ?_, ?_⟩
      · rw [← h.2]
        simp [ValidSuffix, allSpaces]
      · intro u2 v2 _ hlt
        exact absurd hlt (by simp)
    · rintro ⟨u, v, huv, ht, -, hvs, -⟩
      rw [List.nil_eq, List.append_eq_nil] at huv
      obtain ⟨hu, hv⟩ := huv
      subst hu; subst hv
      cases g with
      | none => simp [scanSplits, ht]
      | some w => exact absurd hvs (not_tagSuffixP_nil w)
  | cons c rs ih =>
    intro acc t g
    rcases hm : matchTagSuffix (c :: rs) with - | w0
    · -- no tag parse at this split
      cases hsp : allSpaces (c :: rs) with
      | true =>
        -- whitespace-only remainder: match with an empty extension, no tag
        have hlhs : scanSplits acc (c :: rs) = some (acc.reverse, none) := by
          simp [scanSplits, hm, hsp]
        rw [hlhs]
        constructor
        · intro h
          rw [Option.some_inj, Prod.mk.injEq] at h
          refine ⟨[], c :: rs, by simp, by simp [h.1.symm], by simp, ?_, ?_⟩
          · rw [← h.2]; exact hsp
          · intro u2 v2 _ hlt
            exact absurd hlt (by simp)
        · rintro ⟨u, v, huv, ht, hnl, hvs, hmin⟩
          have hu : u = [] := by
            by_contra hne
            have h0 : (c :: rs) = [] ++ (c :: rs) := by simp
            have := hmin [] (c :: rs) h0 (by
              simp only [List.length_nil]
              exact List.length_pos.mpr hne)
            exact this none hsp
          subst hu
          simp only [List.nil_append] at huv
          subst huv
          cases g with
          | none => simp [ht]
          | some w => exact absurd (tag_not_allSpaces hvs) (by rw [hsp]; simp)
      | false =>
        have hnv : NoValid (c :: rs) := noValid_of hm hsp
        by_cases hc : c = '\n'
        · -- a newline can never be part of the text: total failure
          subst hc
          have hlhs : scanSplits acc ('\n' :: rs) = none := by
            simp [scanSplits, hm, hsp]
          rw [hlhs]
          constructor
          · intro h
            exact absurd h (by simp)
          · rintro ⟨u, v, huv, ht, hnl, hvs, hmin⟩
            exfalso
            cases u with
            | nil =>
              simp only [List.nil_append] at huv
              subst huv
              exact hnv g hvs
            | cons c2 u2 =>
              rw [List.cons_append, List.cons.injEq] at huv
              exact hnl (huv.1 ▸ List.mem_cons_self _ _)
        · -- consume c into the text and continue scanning
          have hlhs : scanSplits acc (c :: rs) = scanSplits (c :: acc) rs := by
            simp [scanSplits, hm, hsp, hc]
          rw [hlhs, ih (c :: acc) t g]
          constructor
          · rintro ⟨u, v, huv, ht, hnl, hvs, hmin⟩
            refine ⟨c :: u, v, by rw [List.cons_append, huv], ?_, ?_, hvs, ?_⟩
            · rw [ht, List.reverse_cons, List.append_assoc]
              rfl
            · intro hmem
              rcases List.mem_cons.mp hmem with h | h
              · exact hc h.symm
              · exact hnl h
            · intro u2 v2 heq hlt
              cases u2 with
              | nil =>
                simp only [List.nil_append] at heq
                subst heq
                exact hnv
              | cons c2 u3 =>
                rw [List.cons_append, List.cons.injEq] at heq
                refine hmin u3 v2 heq.2 ?_
                simp only [List.length_cons] at hlt
                omega
          · rintro ⟨u, v, huv, ht, hnl, hvs, hmin⟩
            cases u with
            | nil =>
              simp only [List.nil_append] at huv
              subst huv
              exact absurd hvs (hnv g)
            | cons c2 u3 =>
              rw [List.cons_append, List.cons.injEq] at huv
              obtain ⟨hc2, hrs⟩ := huv
              subst hc2
              refine ⟨u3, v, hrs, ?_, fun h => hnl (List.mem_cons_of_mem _ h), hvs, ?_⟩
              · rw [ht, List.reverse_cons, List.append_assoc]
                rfl
              · intro u2 v2 heq hlt
                refine hmin (c :: u2) v2 (by rw [List.cons_append, heq]) ?_
                simp only [List.length_cons]
                omega
    · -- a tag parse exists at this split: it wins immediately
      have htag : TagSuffixP (c :: rs) w0 := (matchTagSuffix_some_iff _ _).mp hm
      have hlhs : scanSplits acc (c :: rs) = some (acc.reverse, some w0) := by
        simp [scanSplits, hm]
      rw [hlhs]
      constructor
      · intro h
        rw [Option.some_inj, Prod.mk.injEq] at h
        refine ⟨[], c :: rs, by simp, by simp [h.1.symm], by simp, ?_, ?_⟩
        · rw [← h.2]
          exact htag
        · intro u2 v2 _ hlt
          exact absurd hlt (by simp)
      · rintro ⟨u, v, huv, ht, hnl, hvs, hmin⟩
        have hu : u = [] := by
          by_contra hne
          have h0 : (c :: rs) = [] ++ (c :: rs) := by simp
          have := hmin [] (c :: rs) h0 (by
            simp only [List.length_nil]
            exact List.length_pos.mpr hne)
          exact this (some w0) htag
        subst hu
        simp only [List.nil_append] at huv
        subst huv
        cases g with
        | none => exact absurd (tag_not_allSpaces htag) (by rw [hvs]; simp)
        | some w => rw [tagSuffixP_unique hvs htag, ht]; simp

/-- Characterization of the full line matcher against the grammar, for
lines without a newline character (the loader iterates over
content.splitlines(), whose elements never contain one). -/
lemma matchTodoLine_some_iff (cs : List Char) (hnl : '\n' ∉ cs) (d : Bool) (t : List Char)
    (g : Option (List Char)) :
    matchTodoLine cs = some (d, t, g) ↔
      ∃ m rest, markOk m ∧ cs = '-' :: ' ' :: '[' :: m :: ']' :: ' ' :: rest ∧
        d = decide (m.toLower = 'x') ∧ GrammarSplit rest t g := by
  rcases cs with - | ⟨a, - | ⟨b, - | ⟨c3, - | ⟨m0, - | ⟨d5, - | ⟨e6, - | ⟨f, rs⟩⟩⟩⟩⟩⟩⟩
  · constructor
    · intro h; exact absurd h (by simp [matchTodoLine])
    · rintro ⟨m, rest, -, heq, -⟩; simp at heq
  · constructor
    · intro h; exact absurd h (by simp [matchTodoLine])
    · rintro ⟨m, rest, -, heq, -⟩; simp at heq
  · constructor
    · intro h; exact absurd h (by simp [matchTodoLine])
    · rintro ⟨m, rest, -, heq, -⟩; simp at heq
  · constructor
    · intro h; exact absurd h (by simp [matchTodoLine])
    · rintro ⟨m, rest, -, heq, -⟩; simp at heq
  · constructor
    · intro h; exact absurd h (by simp [matchTodoLine])
    · rintro ⟨m, rest, -, heq, -⟩; simp at heq
  · constructor
    · intro h; exact absurd h (by simp [matchTodoLine])
    · rintro ⟨m, rest, -, heq, -⟩; simp at heq
  · constructor
    · intro h; exact absurd h (by simp [matchTodoLine])
    · rintro ⟨m, rest, -, heq, -, v, hsplit, htne, -⟩
      simp only [List.cons.injEq] at heq
      obtain ⟨-, -, -, -, -, -, hrest⟩ := heq
      have hnil : t ++ v = [] := by rw [← hsplit, ← hrest]
      exact absurd (List.append_eq_nil.mp hnil).1 htne
  · simp only [List.mem_cons, not_or] at hnl
    obtain ⟨-, -, -, -, -, -, hfn, hrsn⟩ := hnl
    by_cases hC : a = '-' ∧ b = ' ' ∧ c3 = '[' ∧ (m0 = ' ' ∨ m0 = 'x' ∨ m0 = 'X') ∧
        d5 = ']' ∧ e6 = ' '
    · obtain ⟨ha, hb, hc3, hmk, hd5, he6⟩ := hC
      subst ha; subst hb; subst hc3; subst hd5; subst he6
      have hf : ¬ (f = '\n') := fun h => hfn h.symm
      have hunf : matchTodoLine ('-' :: ' ' :: '[' :: m0 :: ']' :: ' ' :: f :: rs) =
          (scanSplits [f] rs).map fun p => (decide (m0.toLower = 'x'), p.1, p.2) := by
        show (if '-' = '-' ∧ ' ' = ' ' ∧ '[' = '[' ∧ (m0 = ' ' ∨ m0 = 'x' ∨ m0 = 'X') ∧
            ']' = ']' ∧ ' ' = ' ' then
            if f = '\n' then none
            else (scanSplits [f] rs).map fun p => (decide (m0.toLower = 'x'), p.1, p.2)
          else none) = _
        rw [if_pos ⟨rfl, rfl, rfl, hmk, rfl, rfl⟩, if_neg hf]
      rw [hunf]
      constructor
      · intro h
        rw [Option.map_eq_some'] at h
        obtain ⟨p, hscan, hp⟩ := h
        rw [Prod.mk.injEq, Prod.mk.injEq] at hp
        obtain ⟨hd, ht, hg⟩ := hp
        obtain ⟨u, v, hrs, hpt, hnlu, hvs, hmin⟩ := (scanSplits_some_iff rs [f] p.1 p.2).mp hscan
        have htfu : t = f :: u := by rw [← ht, hpt]; simp
        refine ⟨m0, f :: rs, hmk, rfl, hd.symm, v, ?_, by rw [htfu]; simp, hg ▸ hvs, ?_⟩
        · rw [htfu, List.cons_append, hrs]
        · intro u2 v2 heq hne hlt
          cases u2 with
          | nil => exact absurd rfl hne
          | cons c2 u3 =>
            rw [List.cons_append, List.cons.injEq] at heq
            refine hmin u3 v2 heq.2 ?_
            rw [htfu] at hlt
            simp only [List.length_cons] at hlt
            omega
      · rintro ⟨m, rest, hmk2, heq, hd, v, hsplit, htne, hvs, hmin⟩
        simp only [List.cons.injEq] at heq
        obtain ⟨-, -, -, hm, -, -, hrest⟩ := heq
        subst hm
        cases t with
        | nil => exact absurd rfl htne
        | cons t0 t1 =>
          rw [← hrest, List.cons_append, List.cons.injEq] at hsplit
          obtain ⟨ht0, hrs⟩ := hsplit
          subst ht0
          have hscan : scanSplits [f] rs = some (f :: t1, g) := by
            rw [scanSplits_some_iff]
            refine ⟨t1, v, hrs, by simp, ?_, hvs, ?_⟩
            · intro hmem
              exact hrsn (hrs ▸ List.mem_append_left v hmem)
            · intro u2 v2 heq2 hlt
              refine hmin (f :: u2) v2 (by rw [← hrest, heq2, List.cons_append])
                (List.cons_ne_nil _ _) ?_
              simp only [List.length_cons]
              omega
          rw [hscan, Option.map_some', hd]
    · have hnone : matchTodoLine (a :: b :: c3 :: m0 :: d5 :: e6 :: f :: rs) = none := by
        show (if a = '-' ∧ b = ' ' ∧ c3 = '[' ∧ (m0 = ' ' ∨ m0 = 'x' ∨ m0 = 'X') ∧
            d5 = ']' ∧ e6 = ' ' then
            if f = '\n' then none
            else (scanSplits [f] rs).map fun p => (decide (m0.toLower = 'x'), p.1, p.2)
          else none) = none
        rw [if_neg hC]
      rw [hnone]
      constructor
      · intro h; exact absurd h (by simp)
      · rintro ⟨m, rest, hmk2, heq, -⟩
        simp only [List.cons.injEq] at heq
        obtain ⟨ha, hb, hc3, hm, hd5, he6, -⟩ := heq
        exact absurd ⟨ha, hb, hc3, hm ▸ hmk2, hd5, he6⟩ hC

lemma tagSuffixP_word_ne_nil {v w : List Char} (h : TagSuffixP v w) : w ≠ [] := by
  rcases h with ⟨-, -, -, -, -, hw, -, -⟩
  exact hw

/-- C1: a line is recognized as a todo exactly when it matches the
grammar - [mark] text (#category)? with mark in {space, x, X}; the
resulting item is done iff the mark is x or X, its category is the
trailing tag word when present and "uncategorized" otherwise, and the
grammar decomposition of a line is unique.  Lines from splitlines never
contain a newline, hence the hypothesis. -/
theorem c1_parse_grammar (line : List Char) (hnl : '\n' ∉ line) :
    ((parseLine line).isSome ↔ ∃ m t g, MatchesGrammar line m t g) ∧
    (∀ it, parseLine line = some it →
      ∃ m t g, MatchesGrammar line m t g ∧
        (it.done = true ↔ (m = 'x' ∨ m = 'X')) ∧
        it.category = (match g with | some w => w | none => uncat) ∧ it.text = t) ∧
    (∀ m t g m2 t2 g2, MatchesGrammar line m t g → MatchesGrammar line m2 t2 g2 →
      m = m2 ∧ t = t2 ∧ g = g2) := by
  have key : ∀ m t g, MatchesGrammar line m t g →
      matchTodoLine line = some (decide (m.toLower = 'x'), t, g) := by
    rintro m t g ⟨hmk, rest, hshape, hgs⟩
    exact (matchTodoLine_some_iff line hnl _ t g).mpr ⟨m, rest, hmk, hshape, rfl, hgs⟩
  refine ⟨⟨?_, ?_⟩, ?_, ?_⟩
  · intro h
    rw [Option.isSome_iff_exists] at h
    obtain ⟨it, hit⟩ := h
    unfold parseLine at hit
    rw [Option.map_eq_some'] at hit
    obtain ⟨p, hp, -⟩ := hit
    obtain ⟨m, rest, hmk, hshape, -, hgs⟩ :=
      (matchTodoLine_some_iff line hnl p.1 p.2.1 p.2.2).mp (by rw [hp])
    exact ⟨m, p.2.1, p.2.2, hmk, rest, hshape, hgs⟩
  · rintro ⟨m, t, g, hmg⟩
    have := key m t g hmg
    unfold parseLine
    rw [this]
    simp
  · intro it hit
    unfold parseLine at hit
    rw [Option.map_eq_some'] at hit
    obtain ⟨p, hp, hform⟩ := hit
    obtain ⟨m, rest, hmk, hshape, hd, hgs⟩ :=
      (matchTodoLine_some_iff line hnl p.1 p.2.1 p.2.2).mp (by rw [hp])
    refine ⟨m, p.2.1, p.2.2, ⟨hmk, rest, hshape, hgs⟩, ?_, ?_, ?_⟩
    · rw [← hform]
      show (mkTodoItem p.2.1 p.1 (p.2.2.getD [])).done = true ↔ m = 'x' ∨ m = 'X'
      have hdone : (mkTodoItem p.2.1 p.1 (p.2.2.getD [])).done = p.1 := rfl
      rw [hdone, hd]
      rcases hmk with h | h | h <;> subst h <;> decide
    · rw [← hform]
      obtain ⟨v, -, -, hvs, -⟩ := hgs
      cases hg : p.2.2 with
      | none => rfl
      | some w =>
        have hwne : w ≠ [] := tagSuffixP_word_ne_nil (hg ▸ hvs)
        show (if w = [] then uncat else w) = w
        rw [if_neg hwne]
    · rw [← hform]
      rfl
  · intro m t g m2 t2 g2 h1 h2
    have k1 := key m t g h1
    have k2 := key m2 t2 g2 h2
    obtain ⟨-, rest1, hs1, -⟩ := h1
    obtain ⟨-, rest2, hs2, -⟩ := h2
    have hm : m = m2 := by
      rw [hs1] at hs2
      simp only [List.cons.injEq] at hs2
      obtain ⟨-, -, -, hm, -⟩ := hs2
      exact hm
    rw [k1] at k2
    rw [Option.some_inj, Prod.mk.injEq, Prod.mk.injEq] at k2
    exact ⟨hm, k2.2.1, k2.2.2⟩

/-- Witness: the theorem applied to the concrete line
"- [x] buy milk #home". -/
theorem c1_parse_grammar_witness :
    (((parseLine "- [x] buy milk #home".data).isSome ↔
      ∃ m t g, MatchesGrammar "- [x] buy milk #home".data m t g) ∧
    (∀ it, parseLine "- [x] buy milk #home".data = some it →
      ∃ m t g, MatchesGrammar "- [x] buy milk #home".data m t g ∧
        (it.done = true ↔ (m = 'x' ∨ m = 'X')) ∧
        it.category = (match g with | some w => w | none => uncat) ∧ it.text = t) ∧
    (∀ m t g m2 t2 g2, MatchesGrammar "- [x] buy milk #home".data m t g →
      MatchesGrammar "- [x] buy milk #home".data m2 t2 g2 →
      m = m2 ∧ t = t2 ∧ g = g2)) :=
  c1_parse_grammar "- [x] buy milk #home".data (by decide)

/-! ## Round-trip conditions

A serialized item parses back to itself only under conditions on its
text and category; the predicates below capture them, and the lemmas
show that any violation of the scan's minimality is impossible under
them. -/

/-- The text does not end in whitespace. -/
def noTrailingSpace (t : List Char) : Bool :=
  match t.getLast? with
  | some c => !pySpace c
  | none => true

/-- The text ends in a whitespace-separated #word token (which the
parser would strip off as a category tag). -/
def hasTrailingTagToken (t : List Char) : Bool :=
  if ((t.reverse.dropWhile pySpace).takeWhile pyWord).isEmpty then false
  else
    match (t.reverse.dropWhile pySpace).dropWhile pyWord with
    | c :: r2 => c = '#' && !(r2.takeWhile pySpace).isEmpty
    | [] => false

/-- Conditions under which a todo text survives the round trip: nonempty
ASCII text free of line-boundary characters, with no trailing whitespace
and no trailing #word tag token.  (ASCII because the embedding of \w
covers its ASCII extent.) -/
def goodText (t : List Char) : Bool :=
  !t.isEmpty && t.all (fun c => decide (c.toNat < 128) && !lineBreak c) &&
    noTrailingSpace t && !hasTrailingTagToken t

/-- Conditions under which a todo category survives the round trip:
the default category, or a nonempty single word. -/
def goodCat (c : List Char) : Bool := decide (c = uncat) || (!c.isEmpty && allWord c)

lemma noTrailingSpace_getLast {t : List Char} (h : noTrailingSpace t = true) :
    ∀ c, t.getLast? = some c → pySpace c = false := by
  intro c hc
  unfold noTrailingSpace at h
  rw [hc] at h
  simpa using h

lemma exists_getLast_space {v : List Char} (hne : v ≠ []) (h : allSpaces v = true) :
    ∃ c, v.getLast? = some c ∧ pySpace c = true :=
  ⟨v.getLast hne, List.getLast?_eq_getLast v hne, by
    have := List.all_eq_true.mp h _ (List.getLast_mem hne)
    simpa using this⟩

lemma allWord_no_nl {c : List Char} (h : allWord c = true) : '\n' ∉ c := by
  intro hm
  have := List.all_eq_true.mp h _ hm
  exact absurd this (by decide)

lemma hasTrailingTagToken_of (u2 sp w : List Char) (hsp : sp ≠ []) (hspall : allSpaces sp = true)
    (hw : w ≠ []) (hwall : allWord w = true) :
    hasTrailingTagToken (u2 ++ sp ++ '#' :: w) = true := by
  have hrev : (u2 ++ sp ++ '#' :: w).reverse = w.reverse ++ '#' :: (sp.reverse ++ u2.reverse) := by
    simp [List.reverse_append, List.append_assoc]
  obtain ⟨wc, wt, hwrev⟩ : ∃ c t0, w.reverse = c :: t0 := by
    cases hwr : w.reverse with
    | nil =>
      exfalso
      apply hw
      have := congrArg List.reverse hwr
      simpa using this
    | cons c t0 => exact ⟨c, t0, rfl⟩
  have hwcword : pyWord wc = true := by
    have hmem : wc ∈ w.reverse := hwrev ▸ List.mem_cons_self _ _
    rw [List.mem_reverse] at hmem
    exact List.all_eq_true.mp hwall _ hmem
  have hdropSp : (u2 ++ sp ++ '#' :: w).reverse.dropWhile pySpace =
      w.reverse ++ '#' :: (sp.reverse ++ u2.reverse) := by
    rw [hrev, hwrev, List.cons_append, List.dropWhile_cons, word_not_space hwcword]
    simp
  have hsplit2 := takeWhile_all_append pyWord w.reverse ('#' :: (sp.reverse ++ u2.reverse))
    (by rw [List.all_reverse]; exact hwall)
    (by
      intro c hc
      simp only [List.head?_cons, Option.some_inj] at hc
      subst hc
      decide)
  obtain ⟨sc, st, hsrev⟩ : ∃ c t0, sp.reverse = c :: t0 := by
    cases hsr : sp.reverse with
    | nil =>
      exfalso
      apply hsp
      have := congrArg List.reverse hsr
      simpa using this
    | cons c t0 => exact ⟨c, t0, rfl⟩
  have hscsp : pySpace sc = true := by
    have hmem : sc ∈ sp.reverse := hsrev ▸ List.mem_cons_self _ _
    rw [List.mem_reverse] at hmem
    exact List.all_eq_true.mp hspall _ hmem
  unfold hasTrailingTagToken
  rw [hdropSp, hsplit2.1, hsplit2.2]
  have hWne : (w.reverse).isEmpty = false := by rw [hwrev]; rfl
  rw [hWne]
  simp only [Bool.false_eq_true, if_false]
  rw [hsrev, List.cons_append, List.takeWhile_cons, hscsp]
  simp

/-- Under the good-text conditions, no proper suffix of the text parses
as a valid remainder (whitespace-only or trailing tag). -/
lemma noValid_suffix_of_goodText (text u2 v2 : List Char) (hsplit : text = u2 ++ v2)
    (hne : v2 ≠ []) (hlast : noTrailingSpace text = true)
    (htag : hasTrailingTagToken text = false) : NoValid v2 := by
  have hlastv : ∀ c, v2.getLast? = some c → pySpace c = false := by
    intro c hc
    refine noTrailingSpace_getLast hlast c ?_
    rw [hsplit, List.getLast?_append_of_ne_nil u2 hne, hc]
  intro g hvs
  cases g with
  | none =>
    obtain ⟨c, hc, hcsp⟩ := exists_getLast_space hne hvs
    rw [hlastv c hc] at hcsp
    exact absurd hcsp (by simp)
  | some w =>
    obtain ⟨sp, sp2, hv2, hspne, hspall, hwne, hwall, hsp2all⟩ := hvs
    cases hsp2 : sp2 with
    | cons d2 ds2 =>
      subst hsp2
      have hlv2 : v2.getLast? = (d2 :: ds2).getLast? := by
        rw [hv2, List.getLast?_append_cons, ← List.cons_append, List.getLast?_append_cons]
      obtain ⟨c, hc, hcsp⟩ := exists_getLast_space (List.cons_ne_nil d2 ds2) hsp2all
      rw [hlastv c (by rw [hlv2, hc])] at hcsp
      exact absurd hcsp (by simp)
    | nil =>
      subst hsp2
      have hv2' : v2 = sp ++ '#' :: w := by rw [hv2]; simp
      have : hasTrailingTagToken text = true := by
        have htext : text = u2 ++ sp ++ '#' :: w := by
          rw [hsplit, hv2', List.append_assoc]
        rw [htext]
        exact hasTrailingTagToken_of u2 sp w hspne hspall hwne hwall
      rw [this] at htag
      exact absurd htag (by simp)

/-- With a real tag suffix present, no proper suffix of the line's
remainder (still containing part of the text) parses as valid. -/
lemma noValid_mid_tag (t2 cat : List Char) (ht2 : t2 ≠ [])
    (hlast : ∀ c, t2.getLast? = some c → pySpace c = false) :
    NoValid (t2 ++ ' ' :: '#' :: cat) := by
  intro g hvs
  cases g with
  | none =>
    have : pySpace '#' = true := by
      have hmem : '#' ∈ t2 ++ ' ' :: '#' :: cat := by simp
      exact List.all_eq_true.mp hvs _ hmem
    exact absurd this (by decide)
  | some w =>
    obtain ⟨sp, sp2, heq, hspne, hspall, hwne, hwall, hsp2all⟩ := hvs
    rcases List.append_eq_append_iff.mp heq with ⟨k, hk1, hk2⟩ | ⟨k, hk1, hk2⟩
    · -- sp = t2 ++ k
      cases k with
      | nil =>
        rw [List.append_nil] at hk1
        simp only [List.nil_append, List.cons.injEq] at hk2
        exact absurd hk2.1 (by decide)
      | cons c2 k2 =>
        simp only [List.cons_append, List.cons.injEq] at hk2
        obtain ⟨hc2, hk2'⟩ := hk2
        subst hc2
        cases k2 with
        | nil =>
          -- sp = t2 ++ [' ']: whole of t2 is whitespace, against hlast
          have ht2sp : allSpaces t2 = true := by
            have := hk1 ▸ hspall
            simp only [allSpaces, List.all_append, Bool.and_eq_true] at this
            exact this.1
          obtain ⟨c, hc, hcsp⟩ := exists_getLast_space ht2 ht2sp
          rw [hlast c hc] at hcsp
          exact absurd hcsp (by simp)
        | cons c3 k3 =>
          -- '#' occurs inside the all-whitespace sp
          simp only [List.cons_append, List.cons.injEq] at hk2'
          obtain ⟨hc3, -⟩ := hk2'
          have hmem : c3 ∈ sp := by
            rw [hk1]
            exact List.mem_append_right _ (by simp)
          have := List.all_eq_true.mp hspall _ hmem
          rw [← hc3] at this
          exact absurd this (by decide)
    · -- t2 = sp ++ k
      cases k with
      | nil =>
        simp only [List.nil_append, List.cons.injEq] at hk2
        exact absurd hk2.1 (by decide)
      | cons c2 k2 =>
        simp only [List.cons_append, List.cons.injEq] at hk2
        obtain ⟨-, hk2'⟩ := hk2
        -- w ++ sp2 = k2 ++ ' ' :: '#' :: cat, so '#' is a word or a space
        have hmem : '#' ∈ w ++ sp2 := by
          rw [hk2']
          exact List.mem_append_right _ (by simp)
        rcases List.mem_append.mp hmem with h | h
        · have := List.all_eq_true.mp hwall _ h
          exact absurd this (by decide)
        · have := List.all_eq_true.mp hsp2all _ h
          exact absurd this (by decide)

lemma goodText_clean {t : List Char} (h : goodText t = true) :
    ∀ c ∈ t, lineBreak c = false := by
  intro c hc
  simp only [goodText, Bool.and_eq_true, List.all_eq_true] at h
  have := h.1.1.2 c hc
  rw [Bool.not_eq_true'] at this
  exact this.2

lemma goodText_spec {t : List Char} (h : goodText t = true) :
    t ≠ [] ∧ '\n' ∉ t ∧ noTrailingSpace t = true ∧ hasTrailingTagToken t = false := by
  have hclean := goodText_clean h
  simp only [goodText, Bool.and_eq_true, Bool.not_eq_true'] at h
  obtain ⟨⟨⟨h1, -⟩, h3⟩, h4⟩ := h
  refine ⟨?_, ?_, h3, h4⟩
  · intro hnil
    subst hnil
    exact absurd h1 (by simp)
  · intro hmem
    exact absurd (hclean _ hmem) (by decide)

/-- A serialized item whose text and category satisfy the round-trip
conditions parses back to exactly the same item. -/
lemma parseLine_toMarkdown (it : TodoItem) (ht : goodText it.text = true)
    (hc : goodCat it.category = true) :
    parseLine it.toMarkdown = some it := by
  obtain ⟨text, done, category⟩ := it
  obtain ⟨ht1, ht2, ht3, ht4⟩ := goodText_spec ht
  have hmk : markOk (if done then 'x' else ' ') := by
    cases done
    · exact Or.inl rfl
    · exact Or.inr (Or.inl rfl)
  have hmne : ¬ ('\n' = (if done then 'x' else ' ')) := by cases done <;> decide
  have hdd : decide ((if done then 'x' else ' ').toLower = 'x') = done := by
    cases done <;> decide
  by_cases hcu : category = uncat
  · have hline : TodoItem.toMarkdown ⟨text, done, category⟩ =
        '-' :: ' ' :: '[' :: (if done then 'x' else ' ') :: ']' :: ' ' :: text := by
      simp only [TodoItem.toMarkdown]
      rw [if_neg (show ¬ (category ≠ [] ∧ category ≠ uncat) from fun hh => hh.2 hcu),
        List.append_nil]
    have hnl : '\n' ∉ ('-' :: ' ' :: '[' :: (if done then 'x' else ' ') :: ']' :: ' ' :: text) := by
      simp only [List.mem_cons, not_or]
      exact ⟨by decide, by decide, by decide, hmne, by decide, by decide, ht2⟩
    have hgs : GrammarSplit text text none := by
      refine ⟨[], by simp, ht1, rfl, ?_⟩
      intro u2 v2 heq hne hlt
      have hv2 : v2 ≠ [] := by
        intro hnil
        subst hnil
        rw [List.append_nil] at heq
        subst heq
        exact absurd hlt (lt_irrefl _)
      exact noValid_suffix_of_goodText text u2 v2 heq hv2 ht3 ht4
    have hmatch : matchTodoLine
        ('-' :: ' ' :: '[' :: (if done then 'x' else ' ') :: ']' :: ' ' :: text) =
        some (decide ((if done then 'x' else ' ').toLower = 'x'), text, none) :=
      (matchTodoLine_some_iff _ hnl _ _ _).mpr ⟨_, text, hmk, rfl, rfl, hgs⟩
    rw [hline]
    unfold parseLine
    rw [hmatch, Option.map_some', Option.some_inj]
    unfold mkTodoItem
    rw [hdd]
    simp [hcu]
  · have hcword : category ≠ [] ∧ allWord category = true := by
      simp only [goodCat, Bool.or_eq_true, decide_eq_true_eq, Bool.and_eq_true,
        Bool.not_eq_true'] at hc
      rcases hc with h | ⟨h1, h2⟩
      · exact absurd h hcu
      · refine ⟨?_, h2⟩
        intro hnil
        subst hnil
        exact absurd h1 (by simp)
    obtain ⟨hcne, hcw⟩ := hcword
    have hline : TodoItem.toMarkdown ⟨text, done, category⟩ =
        '-' :: ' ' :: '[' :: (if done then 'x' else ' ') :: ']' :: ' ' ::
          (text ++ ' ' :: '#' :: category) := by
      simp only [TodoItem.toMarkdown]
      rw [if_pos (show category ≠ [] ∧ category ≠ uncat from ⟨hcne, hcu⟩)]
    have hnl : '\n' ∉ ('-' :: ' ' :: '[' :: (if done then 'x' else ' ') :: ']' :: ' ' ::
        (text ++ ' ' :: '#' :: category)) := by
      simp only [List.mem_cons, not_or]
      refine ⟨by decide, by decide, by decide, hmne, by decide, by decide, ?_⟩
      intro hmem
      rcases List.mem_append.mp hmem with h | h
      · exact ht2 h
      · rcases List.mem_cons.mp h with h2 | h2
        · exact absurd h2 (by decide)
        · rcases List.mem_cons.mp h2 with h3 | h3
          · exact absurd h3 (by decide)
          · exact allWord_no_nl hcw h3
    have hgs : GrammarSplit (text ++ ' ' :: '#' :: category) text (some category) := by
      refine ⟨' ' :: '#' :: category, rfl, ht1, ?_, ?_⟩
      · exact ⟨[' '], [], by simp, by simp, by decide, hcne, hcw, rfl⟩
      · intro u2 v2 heq hne hlt
        rcases List.append_eq_append_iff.mp heq with ⟨k, hk1, hk2⟩ | ⟨k, hk1, hk2⟩
        · rw [hk1] at hlt
          simp only [List.length_append] at hlt
          omega
        · have hkne : k ≠ [] := by
            intro hnil
            subst hnil
            rw [List.append_nil] at hk1
            rw [← hk1] at hlt
            exact absurd hlt (lt_irrefl _)
          rw [hk2]
          refine noValid_mid_tag k category hkne ?_
          intro c hcl
          refine noTrailingSpace_getLast ht3 c ?_
          rw [hk1, List.getLast?_append_of_ne_nil _ hkne, hcl]
    have hmatch : matchTodoLine
        ('-' :: ' ' :: '[' :: (if done then 'x' else ' ') :: ']' :: ' ' ::
          (text ++ ' ' :: '#' :: category)) =
        some (decide ((if done then 'x' else ' ').toLower = 'x'), text, some category) :=
      (matchTodoLine_some_iff _ hnl _ _ _).mpr ⟨_, _, hmk, rfl, rfl, hgs⟩
    rw [hline]
    unfold parseLine
    rw [hmatch, Option.map_some', Option.some_inj]
    unfold mkTodoItem
    rw [hdd]
    simp only [Option.getD_some]
    rw [if_neg hcne]

/-! ## Serialized content as a list of lines -/

/-- Join lines with a newline after each (every write of save_todos
ends in one). -/
def joinNl (ls : List (List Char)) : List Char := (ls.map fun l => l ++ ['\n']).flatten

lemma joinNl_cons (l : List Char) (ls : List (List Char)) :
    joinNl (l :: ls) = l ++ '\n' :: joinNl ls := by
  simp [joinNl]

lemma joinNl_append (a b : List (List Char)) : joinNl (a ++ b) = joinNl a ++ joinNl b := by
  simp [joinNl]

lemma splitBreaks_cons_clean (c : Char) (cs : List Char) (hc : lineBreak c = false) :
    splitBreaks (c :: cs) =
      match splitBreaks cs with
      | [] => [[c]]
      | l :: ls => (c :: l) :: ls := by
  have hcr : ¬ (c = '\r') := by
    intro hh
    rw [hh] at hc
    exact absurd hc (by decide)
  cases cs with
  | nil =>
    show (if lineBreak c then [[], []] else [[c]]) = _
    rw [if_neg (by simp [hc])]
    rfl
  | cons c2 rs =>
    show (if c = '\r' ∧ c2 = '\n' then [] :: splitBreaks rs
      else if lineBreak c then [] :: splitBreaks (c2 :: rs)
      else
        match splitBreaks (c2 :: rs) with
        | [] => [[c]]
        | l :: ls => (c :: l) :: ls) = _
    rw [if_neg (fun hh => hcr hh.1), if_neg (by simp [hc])]

lemma splitBreaks_append_nl (l r : List Char) (h : ∀ c ∈ l, lineBreak c = false) :
    splitBreaks (l ++ '\n' :: r) = l :: splitBreaks r := by
  induction l with
  | nil =>
    simp only [List.nil_append]
    cases r with
    | nil => rfl
    | cons c2 rs =>
      show (if '\n' = '\r' ∧ c2 = '\n' then [] :: splitBreaks rs
        else if lineBreak '\n' then [] :: splitBreaks (c2 :: rs)
        else
          match splitBreaks (c2 :: rs) with
          | [] => [['\n']]
          | l :: ls => ('\n' :: l) :: ls) = _
      rw [if_neg (fun hh => absurd hh.1 (by decide)), if_pos (by decide)]
  | cons c cs ih =>
    rw [List.cons_append, splitBreaks_cons_clean c _ (h c (List.mem_cons_self _ _)),
      ih (fun x hx => h x (List.mem_cons_of_mem _ hx))]

lemma splitBreaks_joinNl (ls : List (List Char)) (h : ∀ l ∈ ls, ∀ c ∈ l, lineBreak c = false) :
    splitBreaks (joinNl ls) = ls ++ [[]] := by
  induction ls with
  | nil => rfl
  | cons l rest ih =>
    rw [joinNl_cons, splitBreaks_append_nl l _ (h l (List.mem_cons_self _ _)),
      ih (fun x hx => h x (List.mem_cons_of_mem _ hx)), List.cons_append]

lemma splitLines_joinNl (ls : List (List Char)) (h : ∀ l ∈ ls, ∀ c ∈ l, lineBreak c = false) :
    splitLines (joinNl ls) = ls := by
  unfold splitLines
  rw [splitBreaks_joinNl ls h, List.getLast?_concat, if_pos rfl, List.dropLast_concat]

/-! ## The TodoList store

Python TodoItem objects are compared and hashed by identity, so the
model tags each created item with a fresh natural-number id; the
self.todo_files dictionary becomes an association list from id to file
name and self.todos a list of (id, item) pairs.  The categories set
becomes a duplicate-free list; the only reads performed on it are
membership and sorted(list(...)). -/

/-- Entry of a Python set: add the element if not already present. -/
def insertSet (x : List Char) (l : List (List Char)) : List (List Char) :=
  if x ∈ l then l else l ++ [x]

/-- Dictionary get on an association list keyed by item identity. -/
def lookupKV (l : List (Nat × List Char)) (k : Nat) : Option (List Char) :=
  (l.find? fun e => e.1 = k).map (·.2)

/-- Dictionary assignment d[k] = v keyed by item identity. -/
def setKV (l : List (Nat × List Char)) (k : Nat) (v : List Char) : List (Nat × List Char) :=
  if l.any (fun e => e.1 = k) then l.map (fun e => if e.1 = k then (k, v) else e)
  else l ++ [(k, v)]

/-- todos_by_file accumulation: append the todo to the list stored under
the file name, creating the entry if absent (dict insertion order). -/
def pushKV (l : List (List Char × List TodoItem)) (k : List Char) (v : TodoItem) :
    List (List Char × List TodoItem) :=
  if l.any (fun e => e.1 = k) then
    l.map (fun e => if e.1 = k then (e.1, e.2 ++ [v]) else e)
  else l ++ [(k, [v])]

/-- Python string comparison: lexicographic by code point. -/
def strLt : List Char → List Char → Bool
  | [], [] => false
  | [], _ :: _ => true
  | _ :: _, [] => false
  | a :: as, b :: bs => if a < b then true else if b < a then false else strLt as bs

/-- The TodoList store state (mdtodo.py TodoList). nextId is the model
artifact that produces fresh object identities. -/
structure TodoList where
  directory : List Char
  todos : List (Nat × TodoItem)
  todoFiles : List (Nat × List Char)
  categories : List (List Char)
  nextId : Nat
deriving DecidableEq

/-- One line of the per-file body of load_todos: on a match, register
the category, append the item and record its origin file (mdtodo.py
lines 83-95). -/
def loadLineStep (name : List Char) (s : TodoList) (line : List Char) : TodoList :=
  match matchTodoLine line with
  | none => s
  | some (d, t, g) =>
    { s with
      categories := insertSet (g.getD uncat) s.categories
      todos := s.todos ++ [(s.nextId, mkTodoItem t d (g.getD uncat))]
      todoFiles := s.todoFiles ++ [(s.nextId, name)]
      nextId := s.nextId + 1 }

/-- The per-file body of load_todos over all lines of a file. -/
def loadFileLines (name : List Char) (s : TodoList) (lines : List (List Char)) : TodoList :=
  lines.foldl (loadLineStep name) s

/-- The file loop of load_todos.  Reading a file with no content
(unreadable, bad encoding) raises IOError, which propagates out of the
loop: the partially rebuilt state is kept and the remaining files are
not visited.  The second component is the name of the failing file. -/
def loadGo : TodoList → List (List Char × Option (List Char)) → TodoList × Option (List Char)
  | s, [] => (s, none)
  | s, (name, none) :: _ => (s, some name)
  | s, (name, some content) :: rest =>
    loadGo (loadFileLines name s (splitLines content)) rest

/-- TodoList.load_todos: reset todos and todo_files (but not
categories), then scan the directory's markdown files in order. -/
def TodoList.loadTodos (tl : TodoList) (files : List (List Char × Option (List Char))) :
    TodoList × Option (List Char) :=
  loadGo { tl with todos := [], todoFiles := [] } files

/-- TodoList.__init__: empty store with categories {"uncategorized"},
immediately followed by load_todos. -/
def TodoList.init (directory : List Char) (files : List (List Char × Option (List Char))) :
    TodoList × Option (List Char) :=
  TodoList.loadTodos ⟨directory, [], [], [uncat], 0⟩ files

/-- Python str.capitalize: first character upper-cased, the rest
lower-cased. -/
def capitalizeStr : List Char → List Char
  | [] => []
  | c :: rs => c.toUpper :: rs.map Char.toLower

/-- Python file_name.replace(".md", ""): remove every occurrence of
".md", scanning left to right. -/
def stripMd : List Char → List Char
  | '.' :: 'm' :: 'd' :: rs => stripMd rs
  | c :: rs => c :: stripMd rs
  | [] => []

/-- The with-open block of save_todos for one file: heading from the
capitalized file name, an Active section when some todo is not done,
then a Completed section when some todo is done (mdtodo.py 114-137). -/
def serializeFile (fileName : List Char) (todos : List TodoItem) : List Char :=
  let doneTodos := todos.filter (·.done)
  let notDoneTodos := todos.filter (fun t => !t.done)
  let categoryName := stripMd fileName
  "# ".data ++ capitalizeStr categoryName ++ " Tasks\n\n".data ++
    (if notDoneTodos ≠ [] then
      "## Active\n\n".data ++ (notDoneTodos.map (fun t => t.toMarkdown ++ ['\n'])).flatten ++ ['\n']
    else []) ++
    (if doneTodos ≠ [] then
      "## Completed\n\n".data ++ (doneTodos.map (fun t => t.toMarkdown ++ ['\n'])).flatten
    else [])

/-- The lines of serializeFile: heading, blank, then the optional
Active and Completed sections. -/
def serLines (fileName : List Char) (todos : List TodoItem) : List (List Char) :=
  ("# ".data ++ capitalizeStr (stripMd fileName) ++ " Tasks".data) :: [] ::
    ((if todos.filter (fun t => !t.done) ≠ [] then
        "## Active".data :: [] ::
          ((todos.filter (fun t => !t.done)).map TodoItem.toMarkdown ++ [[]])
      else []) ++
      (if todos.filter (·.done) ≠ [] then
        "## Completed".data :: [] :: (todos.filter (·.done)).map TodoItem.toMarkdown
      else []))

lemma serializeFile_eq_joinNl (fileName : List Char) (todos : List TodoItem) :
    serializeFile fileName todos = joinNl (serLines fileName todos) := by
  unfold serializeFile serLines
  by_cases h1 : todos.filter (fun t => !t.done) ≠ []
  · by_cases h2 : todos.filter (·.done) ≠ []
    · simp only [if_pos h1, if_pos h2]
      simp [joinNl, List.map_map, Function.comp_def, List.append_assoc]
    · simp only [if_pos h1, if_neg h2]
      simp [joinNl, List.map_map, Function.comp_def, List.append_assoc]
  · by_cases h2 : todos.filter (·.done) ≠ []
    · simp only [if_neg h1, if_pos h2]
      simp [joinNl, List.map_map, Function.comp_def, List.append_assoc]
    · simp only [if_neg h1, if_neg h2]
      simp [joinNl, List.map_map, Function.comp_def, List.append_assoc]

lemma matchTodoLine_ne_dash {a : Char} (ha : ¬ (a = '-')) (xs : List Char) :
    matchTodoLine (a :: xs) = none := by
  rcases xs with - | ⟨b, - | ⟨c, - | ⟨m, - | ⟨d, - | ⟨e, - | ⟨f, rs⟩⟩⟩⟩⟩⟩
  · rfl
  · rfl
  · rfl
  · rfl
  · rfl
  · rfl
  · show (if a = '-' ∧ b = ' ' ∧ c = '[' ∧ (m = ' ' ∨ m = 'x' ∨ m = 'X') ∧ d = ']' ∧ e = ' '
        then
          if f = '\n' then none
          else (scanSplits [f] rs).map fun p => (decide (m.toLower = 'x'), p.1, p.2)
        else none) = none
    rw [if_neg (fun hh => ha hh.1)]

lemma parseLine_ne_dash {a : Char} (ha : ¬ (a = '-')) (xs : List Char) :
    parseLine (a :: xs) = none := by
  unfold parseLine
  rw [matchTodoLine_ne_dash ha, Option.map_none']

lemma no_break_toMarkdown (it : TodoItem) (ht : goodText it.text = true)
    (hc : goodCat it.category = true) : ∀ ch ∈ it.toMarkdown, lineBreak ch = false := by
  obtain ⟨text, done, category⟩ := it
  have hclean := goodText_clean ht
  have hmark : lineBreak (if done then 'x' else ' ') = false := by cases done <;> decide
  intro ch hmem
  simp only [TodoItem.toMarkdown, List.mem_cons] at hmem
  rcases hmem with h | h | h | h | h | h | h
  · subst h; decide
  · subst h; decide
  · subst h; decide
  · subst h; exact hmark
  · subst h; decide
  · subst h; decide
  · rcases List.mem_append.mp h with h2 | h2
    · exact hclean _ h2
    · split at h2
      · rename_i hcond
        rcases List.mem_cons.mp h2 with h3 | h3
        · subst h3; decide
        rcases List.mem_cons.mp h3 with h4 | h4
        · subst h4; decide
        · have hcw : allWord category = true := by
            simp only [goodCat, Bool.or_eq_true, decide_eq_true_eq, Bool.and_eq_true,
              Bool.not_eq_true'] at hc
            rcases hc with hcc | hcc
            · exact absurd hcc hcond.2
            · exact hcc.2
          exact word_not_break (List.all_eq_true.mp hcw _ h4)
      · exact absurd h2 (by simp)

lemma filterMap_parseLine_map_toMarkdown (l : List TodoItem)
    (h : ∀ it ∈ l, goodText it.text = true ∧ goodCat it.category = true) :
    (l.map TodoItem.toMarkdown).filterMap parseLine = l := by
  induction l with
  | nil => rfl
  | cons it rest ih =>
    rw [List.map_cons, List.filterMap_cons,
      parseLine_toMarkdown it (h it (List.mem_cons_self _ _)).1
        (h it (List.mem_cons_self _ _)).2,
      ih (fun x hx => h x (List.mem_cons_of_mem _ hx))]

/-- Parsing the serialization of a list of items yields exactly the
active items followed by the completed items. -/
lemma parseContent_serializeFile (fileName : List Char) (todos : List TodoItem)
    (hname : ∀ ch ∈ capitalizeStr (stripMd fileName), lineBreak ch = false)
    (hgood : ∀ it ∈ todos, goodText it.text = true ∧ goodCat it.category = true) :
    parseContent (serializeFile fileName todos) =
      todos.filter (fun t => !t.done) ++ todos.filter (·.done) := by
  have hhd : ∀ ch ∈ "# ".data, lineBreak ch = false := by decide
  have htk : ∀ ch ∈ " Tasks".data, lineBreak ch = false := by decide
  have hlines : ∀ l ∈ serLines fileName todos, ∀ ch ∈ l, lineBreak ch = false := by
    intro l hl
    unfold serLines at hl
    rcases List.mem_cons.mp hl with hh | hl2
    · subst hh
      intro ch hmem
      rcases List.mem_append.mp hmem with h | h
      · rcases List.mem_append.mp h with h2 | h2
        · exact hhd ch h2
        · exact hname ch h2
      · exact htk ch h
    rcases List.mem_cons.mp hl2 with hh | hl3
    · subst hh
      intro ch hmem
      exact absurd hmem (by simp)
    rcases List.mem_append.mp hl3 with hb | hb
    · split at hb
      · rcases List.mem_cons.mp hb with hh | hb2
        · subst hh; decide
        rcases List.mem_cons.mp hb2 with hh | hb3
        · subst hh
          intro ch hmem
          exact absurd hmem (by simp)
        rcases List.mem_append.mp hb3 with hb4 | hb4
        · obtain ⟨it, hit, hml⟩ := List.mem_map.mp hb4
          subst hml
          have := hgood it (List.mem_of_mem_filter hit)
          exact no_break_toMarkdown it this.1 this.2
        · rcases List.mem_cons.mp hb4 with hh | hh
          · subst hh
            intro ch hmem
            exact absurd hmem (by simp)
          · exact absurd hh (by simp)
      · exact absurd hb (by simp)
    · split at hb
      · rcases List.mem_cons.mp hb with hh | hb2
        · subst hh; decide
        rcases List.mem_cons.mp hb2 with hh | hb3
        · subst hh
          intro ch hmem
          exact absurd hmem (by simp)
        · obtain ⟨it, hit, hml⟩ := List.mem_map.mp hb3
          subst hml
          have := hgood it (List.mem_of_mem_filter hit)
          exact no_break_toMarkdown it this.1 this.2
      · exact absurd hb (by simp)
  have hh : parseLine ('#' :: ' ' :: (capitalizeStr (stripMd fileName) ++
      [' ', 'T', 'a', 's', 'k', 's'])) = none :=
    parseLine_ne_dash (by decide) _
  have hact : parseLine ['#', '#', ' ', 'A', 'c', 't', 'i', 'v', 'e'] = none := by decide
  have hcomp : parseLine ['#', '#', ' ', 'C', 'o', 'm', 'p', 'l', 'e', 't', 'e', 'd'] = none := by
    decide
  have hnil : parseLine ([] : List Char) = none := rfl
  unfold parseContent
  rw [serializeFile_eq_joinNl, splitLines_joinNl _ hlines]
  unfold serLines
  have hgA : ∀ it ∈ todos.filter (fun t => !t.done),
      goodText it.text = true ∧ goodCat it.category = true :=
    fun it hit => hgood it (List.mem_of_mem_filter hit)
  have hgD : ∀ it ∈ todos.filter (·.done),
      goodText it.text = true ∧ goodCat it.category = true :=
    fun it hit => hgood it (List.mem_of_mem_filter hit)
  by_cases h1 : todos.filter (fun t => !t.done) ≠ []
  · by_cases h2 : todos.filter (·.done) ≠ []
    · simp only [if_pos h1, if_pos h2]
      simp [List.filterMap_cons, List.filterMap_append, hh, hact, hcomp, hnil,
        filterMap_parseLine_map_toMarkdown _ hgA, filterMap_parseLine_map_toMarkdown _ hgD]
    · rw [not_ne_iff] at h2
      simp only [if_pos h1, if_neg (by rw [h2]; exact fun hx => hx rfl :
        ¬ todos.filter (·.done) ≠ [])]
      simp [List.filterMap_cons, List.filterMap_append, hh, hact, hcomp, hnil,
        filterMap_parseLine_map_toMarkdown _ hgA, h2]
  · rw [not_ne_iff] at h1
    by_cases h2 : todos.filter (·.done) ≠ []
    · simp only [if_neg (by rw [h1]; exact fun hx => hx rfl :
        ¬ todos.filter (fun t => !t.done) ≠ []), if_pos h2]
      simp [List.filterMap_cons, List.filterMap_append, hh, hact, hcomp, hnil,
        filterMap_parseLine_map_toMarkdown _ hgD, h1]
    · rw [not_ne_iff] at h2
      simp only [if_neg (by rw [h1]; exact fun hx => hx rfl :
        ¬ todos.filter (fun t => !t.done) ≠ []),
        if_neg (by rw [h2]; exact fun hx => hx rfl : ¬ todos.filter (·.done) ≠ [])]
      simp [List.filterMap_cons, hh, hnil, h1, h2]

/-- The grouping loop of save_todos: look up each todo's origin file,
assigning (and recording) "<category>.md" when the stored name is
missing or empty, and append the todo to that file's group. -/
def saveStep (acc : List (Nat × List Char) × List (List Char × List TodoItem))
    (e : Nat × TodoItem) : List (Nat × List Char) × List (List Char × List TodoItem) :=
  if (lookupKV acc.1 e.1).getD [] = [] then
    (setKV acc.1 e.1 (e.2.category ++ ".md".data),
      pushKV acc.2 (e.2.category ++ ".md".data) e.2)
  else (acc.1, pushKV acc.2 ((lookupKV acc.1 e.1).getD []) e.2)

/-- TodoList.save_todos: group todos by origin file, then write each
file in full.  Returns the store with the updated origin dictionary and
the list of (file name, content) pairs written. -/
def TodoList.saveTodos (tl : TodoList) : TodoList × List (List Char × List Char) :=
  let res := tl.todos.foldl saveStep (tl.todoFiles, [])
  ({ tl with todoFiles := res.1 }, res.2.map fun g => (g.1, serializeFile g.1 g.2))

/-- TodoList.add_todo: default the category, register it, append a new
item (fresh identity, no origin file). -/
def TodoList.addTodo (tl : TodoList) (text category : List Char) : TodoList × (Nat × TodoItem) :=
  let cat := if category = [] then uncat else category
  let item := mkTodoItem text false cat
  let e := (tl.nextId, item)
  ({ tl with
      categories := insertSet cat tl.categories
      todos := tl.todos ++ [e]
      nextId := tl.nextId + 1 }, e)

/-- TodoList.delete_todo: if the item is present, remove its first
occurrence from todos and drop its origin entry; otherwise no-op. -/
def TodoList.deleteTodo (tl : TodoList) (id : Nat) : TodoList :=
  if tl.todos.any (fun e => e.1 = id) then
    { tl with
        todos := tl.todos.eraseP (fun e => decide (e.1 = id))
        todoFiles := tl.todoFiles.eraseP (fun e => decide (e.1 = id)) }
  else tl

/-- TodoList.get_todos_by_category. -/
def TodoList.getTodosByCategory (tl : TodoList) (c : List Char) : List (Nat × TodoItem) :=
  tl.todos.filter (fun e => e.2.category = c)

/-- TodoList.get_categories: sorted(list(self.categories)). -/
def TodoList.getCategories (tl : TodoList) : List (List Char) :=
  tl.categories.insertionSort (fun a b => strLt a b = true)

/-! ## Facts about the load operation (claims C4 and C5) -/

lemma scanSplits_tag_ne_nil (acc rest t w : List Char)
    (h : scanSplits acc rest = some (t, some w)) : w ≠ [] := by
  obtain ⟨u, v, -, -, -, hvs, -⟩ := (scanSplits_some_iff rest acc t (some w)).mp h
  exact tagSuffixP_word_ne_nil hvs

lemma matchTodoLine_tag_ne_nil (cs : List Char) (d : Bool) (t w : List Char)
    (h : matchTodoLine cs = some (d, t, some w)) : w ≠ [] := by
  rcases cs with - | ⟨a, - | ⟨b, - | ⟨c3, - | ⟨m0, - | ⟨d5, - | ⟨e6, - | ⟨f, rs⟩⟩⟩⟩⟩⟩⟩
  · exact absurd h (by simp [matchTodoLine])
  · exact absurd h (by simp [matchTodoLine])
  · exact absurd h (by simp [matchTodoLine])
  · exact absurd h (by simp [matchTodoLine])
  · exact absurd h (by simp [matchTodoLine])
  · exact absurd h (by simp [matchTodoLine])
  · exact absurd h (by simp [matchTodoLine])
  · have hred : matchTodoLine (a :: b :: c3 :: m0 :: d5 :: e6 :: f :: rs) =
        (if a = '-' ∧ b = ' ' ∧ c3 = '[' ∧ (m0 = ' ' ∨ m0 = 'x' ∨ m0 = 'X') ∧
            d5 = ']' ∧ e6 = ' ' then
          if f = '\n' then none
          else (scanSplits [f] rs).map fun p => (decide (m0.toLower = 'x'), p.1, p.2)
        else none) := rfl
    rw [hred] at h
    split at h
    · split at h
      · exact absurd h (by simp)
      · rw [Option.map_eq_some'] at h
        obtain ⟨p, hscan, hp⟩ := h
        rw [Prod.mk.injEq, Prod.mk.injEq] at hp
        obtain ⟨-, -, hg⟩ := hp
        refine scanSplits_tag_ne_nil [f] rs p.1 w ?_
        rw [← hg, hscan]
    · exact absurd h (by simp)

/-- The per-line construction of load_todos produces exactly the item
parseLine yields. -/
lemma loadItem_eq_parseLine (line : List Char) :
    (match matchTodoLine line with
      | none => none
      | some (d, t, g) => some (mkTodoItem t d (g.getD uncat))) = parseLine line := by
  unfold parseLine
  cases h : matchTodoLine line with
  | none => simp
  | some p =>
    obtain ⟨d, t, g⟩ := p
    cases g with
    | none => simp [mkTodoItem, ite_self]
    | some w => simp

/-- The category registered for a matched line equals the category of
the constructed item. -/
lemma load_cat_eq (line : List Char) (d : Bool) (t : List Char) (g : Option (List Char))
    (h : matchTodoLine line = some (d, t, g)) :
    (mkTodoItem t d (g.getD uncat)).category = g.getD uncat := by
  cases g with
  | none => simp [mkTodoItem, ite_self]
  | some w =>
    have hw := matchTodoLine_tag_ne_nil _ _ _ _ h
    show (if w = [] then uncat else w) = w
    rw [if_neg hw]

lemma mem_insertSet {c x : List Char} {l : List (List Char)} :
    c ∈ insertSet x l ↔ c ∈ l ∨ c = x := by
  unfold insertSet
  split
  · rename_i hx
    constructor
    · exact Or.inl
    · rintro (h | rfl)
      · exact h
      · exact hx
  · simp [List.mem_append]

lemma loadFileLines_spec (name : List Char) (lines : List (List Char)) : ∀ s : TodoList,
    (loadFileLines name s lines).todos.map (fun e => e.2) =
      s.todos.map (fun e => e.2) ++ lines.filterMap parseLine ∧
    (∀ c, c ∈ (loadFileLines name s lines).categories ↔
      c ∈ s.categories ∨ c ∈ (lines.filterMap parseLine).map (fun it => it.category)) := by
  induction lines with
  | nil => intro s; simp [loadFileLines]
  | cons line rest ih =>
    intro s
    have hstep : loadFileLines name s (line :: rest) =
        loadFileLines name (loadLineStep name s line) rest := by
      unfold loadFileLines
      rw [List.foldl_cons]
    rw [hstep]
    cases hml : matchTodoLine line with
    | none =>
      have hpl : parseLine line = none := by rw [← loadItem_eq_parseLine, hml]
      have hls : loadLineStep name s line = s := by unfold loadLineStep; rw [hml]
      rw [hls]
      obtain ⟨ih1, ih2⟩ := ih s
      refine ⟨?_, ?_⟩
      · rw [ih1, List.filterMap_cons, hpl]
      · intro c
        rw [ih2 c, List.filterMap_cons, hpl]
    | some p =>
      obtain ⟨d, t, g⟩ := p
      have hpl : parseLine line = some (mkTodoItem t d (g.getD uncat)) := by
        rw [← loadItem_eq_parseLine, hml]
      have hls : loadLineStep name s line =
          { s with
              categories := insertSet (g.getD uncat) s.categories
              todos := s.todos ++ [(s.nextId, mkTodoItem t d (g.getD uncat))]
              todoFiles := s.todoFiles ++ [(s.nextId, name)]
              nextId := s.nextId + 1 } := by
        unfold loadLineStep
        rw [hml]
      rw [hls]
      obtain ⟨ih1, ih2⟩ := ih
        { s with
            categories := insertSet (g.getD uncat) s.categories
            todos := s.todos ++ [(s.nextId, mkTodoItem t d (g.getD uncat))]
            todoFiles := s.todoFiles ++ [(s.nextId, name)]
            nextId := s.nextId + 1 }
      refine ⟨?_, ?_⟩
      · rw [ih1, List.filterMap_cons, hpl]
        simp [List.append_assoc]
      · intro c
        rw [ih2 c, List.filterMap_cons, hpl]
        show c ∈ insertSet (g.getD uncat) s.categories ∨ _ ↔ _
        rw [mem_insertSet, List.map_cons, List.mem_cons, load_cat_eq line d t g hml]
        tauto

lemma loadGo_ok_spec (files : List (List Char × List Char)) : ∀ s : TodoList,
    (loadGo s (files.map fun f => (f.1, some f.2))).2 = none ∧
    (loadGo s (files.map fun f => (f.1, some f.2))).1.todos.map (fun e => e.2) =
      s.todos.map (fun e => e.2) ++ (files.map fun f => parseContent f.2).flatten ∧
    (∀ c, c ∈ (loadGo s (files.map fun f => (f.1, some f.2))).1.categories ↔
      c ∈ s.categories ∨
        c ∈ ((files.map fun f => parseContent f.2).flatten.map fun it => it.category)) := by
  induction files with
  | nil => intro s; simp [loadGo]
  | cons f rest ih =>
    intro s
    have hcons : loadGo s ((f.1, some f.2) :: rest.map fun f => (f.1, some f.2)) =
        loadGo (loadFileLines f.1 s (splitLines f.2)) (rest.map fun f => (f.1, some f.2)) :=
      rfl
    rw [List.map_cons, hcons]
    obtain ⟨ih1, ih2, ih3⟩ := ih (loadFileLines f.1 s (splitLines f.2))
    obtain ⟨hf1, hf2⟩ := loadFileLines_spec f.1 (splitLines f.2) s
    refine ⟨ih1, ?_, ?_⟩
    · rw [ih2, hf1, List.map_cons, List.flatten_cons, List.append_assoc]
      rfl
    · intro c
      rw [ih3 c, hf2 c, List.map_cons, List.flatten_cons, List.map_append, List.mem_append]
      unfold parseContent
      tauto

/-- C4 counterexample: load_todos does not rebuild the categories set:
after registering "work" via add_todo, a reload over an empty directory
still reports "work" among the categories although no items exist. -/
theorem c4_load_categories_cex :
    ((((TodoList.init [] []).1.addTodo "t".data "work".data).1).loadTodos []).1.categories ≠
      [uncat] ∧
    "work".data ∈
      ((((TodoList.init [] []).1.addTodo "t".data "work".data).1).loadTodos []).1.categories ∧
    ((((TodoList.init [] []).1.addTodo "t".data "work".data).1).loadTodos []).1.todos = [] := by
  decide

/-- C4 amended: load clears the items and the origin mapping and
reparses the current files, but the categories set is only extended:
after a load of readable files it holds the old categories plus the
categories of the parsed items; a fresh store loaded over an empty
directory has categories {"uncategorized"} and no items. -/
theorem c4_load_amended :
    (∀ (tl : TodoList) (files : List (List Char × List Char)),
      (tl.loadTodos (files.map fun f => (f.1, some f.2))).2 = none ∧
      (tl.loadTodos (files.map fun f => (f.1, some f.2))).1.todos.map (fun e => e.2) =
        (files.map fun f => parseContent f.2).flatten ∧
      (∀ c, c ∈ (tl.loadTodos (files.map fun f => (f.1, some f.2))).1.categories ↔
        c ∈ tl.categories ∨
          c ∈ ((files.map fun f => parseContent f.2).flatten.map fun it => it.category))) ∧
    (∀ directory : List Char,
      (TodoList.init directory []).1.categories = [uncat] ∧
      (TodoList.init directory []).1.todos = []) := by
  constructor
  · intro tl files
    obtain ⟨h1, h2, h3⟩ :=
      loadGo_ok_spec files { tl with todos := [], todoFiles := [] }
    exact ⟨h1, by simpa using h2, h3⟩
  · intro directory
    exact ⟨rfl, rfl⟩

lemma loadGo_append_error (name : List Char) (post : List (List Char × Option (List Char)))
    (pre : List (List Char × List Char)) : ∀ s : TodoList,
    loadGo s ((pre.map fun f => (f.1, some f.2)) ++ (name, none) :: post) =
      ((loadGo s (pre.map fun f => (f.1, some f.2))).1, some name) := by
  induction pre with
  | nil => intro s; rfl
  | cons f rest ih => intro s; exact ih (loadFileLines f.1 s (splitLines f.2))

/-- C5 counterexample: with files a.md (readable), b.md (unreadable)
and c.md (readable), the load aborts at b.md: only the item of a.md is
loaded and c.md is never parsed. -/
theorem c5_load_error_cex :
    (TodoList.init [] [("a.md".data, some "- [ ] t1".data), ("b.md".data, none),
        ("c.md".data, some "- [ ] t3".data)]).2 = some "b.md".data ∧
    (TodoList.init [] [("a.md".data, some "- [ ] t1".data), ("b.md".data, none),
        ("c.md".data, some "- [ ] t3".data)]).1.todos.map (fun e => e.2.text) =
      ["t1".data] := by
  decide

/-- C5 amended: an unreadable file raises out of the load loop: the
files before it are parsed and kept, the error carries that file's
name, and the remaining files are not visited. -/
theorem c5_load_error_amended (tl : TodoList) (pre : List (List Char × List Char))
    (name : List Char) (post : List (List Char × Option (List Char))) :
    tl.loadTodos ((pre.map fun f => (f.1, some f.2)) ++ (name, none) :: post) =
      ((tl.loadTodos (pre.map fun f => (f.1, some f.2))).1, some name) :=
  loadGo_append_error name post pre { tl with todos := [], todoFiles := [] }

/-! ## Claims C2 and C3 -/

/-- C2 counterexample: the claim fails as stated.  The item with text
"a #b" and category "uncategorized" serializes to "- [ ] a #b", which
parses back with text "a" (and category "b"): the parsed sequence is
not equal to the original in text. -/
theorem c2_roundtrip_cex :
    (parseContent (serializeFile "misc.md".data
        [⟨"a #b".data, false, uncat⟩])).map (fun it => (it.text, it.done)) ≠
      [("a #b".data, false)] ∧
    (parseContent (serializeFile "misc.md".data
        [⟨"a #b".data, false, uncat⟩])).map (fun it => (it.text, it.done)) =
      [("a".data, false)] := by
  decide

/-- C2 amended: for items whose text is nonempty ASCII free of
line-boundary characters, has no trailing whitespace and does not end in
a whitespace-separated #word token, and whose category is
"uncategorized" or a nonempty \w+ word, parsing the serialization
yields the not-done items followed by the done items, equal in text,
done flag and category (the category is preserved through the embedded
tag, not re-derived from the file). -/
theorem c2_roundtrip_amended (fileName : List Char) (items : List TodoItem)
    (hname : ∀ ch ∈ capitalizeStr (stripMd fileName), lineBreak ch = false)
    (hgood : ∀ it ∈ items, goodText it.text = true ∧ goodCat it.category = true) :
    parseContent (serializeFile fileName items) =
      items.filter (fun t => !t.done) ++ items.filter (·.done) :=
  parseContent_serializeFile fileName items hname hgood

/-- Witness: the amended round trip at a concrete file of two items. -/
theorem c2_roundtrip_amended_witness :
    parseContent (serializeFile "work.md".data
        [⟨"write report".data, false, "work".data⟩, ⟨"old task".data, true, uncat⟩]) =
      ([⟨"write report".data, false, "work".data⟩, ⟨"old task".data, true, uncat⟩] :
          List TodoItem).filter (fun t => !t.done) ++
        ([⟨"write report".data, false, "work".data⟩, ⟨"old task".data, true, uncat⟩] :
          List TodoItem).filter (·.done) :=
  c2_roundtrip_amended "work.md".data
    [⟨"write report".data, false, "work".data⟩, ⟨"old task".data, true, uncat⟩]
    (by decide) (by decide)

/-- C3 counterexample: for an item in category "home" the emitted
checkbox line is "- [ ] buy milk #home", not "- [ ] buy milk": the
category suffix is not omitted in per-category files. -/
theorem c3_checkbox_line_cex :
    TodoItem.toMarkdown ⟨"buy milk".data, false, "home".data⟩ ≠ "- [ ] buy milk".data ∧
    TodoItem.toMarkdown ⟨"buy milk".data, false, "home".data⟩ =
      "- [ ] buy milk #home".data := by
  decide

/-- C3 amended: the emitted checkbox line is "- [mark] text" when the
category is empty or "uncategorized" and "- [mark] text #category"
otherwise; after addTodo("buy milk", "home") then save, the store
writes home.md whose lines are the heading, an Active section and the
line "- [ ] buy milk #home". -/
theorem c3_checkbox_line_amended :
    (∀ it : TodoItem, it.category = uncat →
      it.toMarkdown =
        '-' :: ' ' :: '[' :: (if it.done then 'x' else ' ') :: ']' :: ' ' :: it.text) ∧
    (∀ it : TodoItem, it.category ≠ [] → it.category ≠ uncat →
      it.toMarkdown =
        '-' :: ' ' :: '[' :: (if it.done then 'x' else ' ') :: ']' :: ' ' ::
          (it.text ++ ' ' :: '#' :: it.category)) ∧
    ((((TodoList.init [] []).1.addTodo "buy milk".data "home".data).1).saveTodos.2.map
        (fun f => (f.1, splitLines f.2)) =
      [("home.md".data,
        ["# Home Tasks".data, [], "## Active".data, [],
          "- [ ] buy milk #home".data, []])]) := by
  refine ⟨?_, ?_, by decide⟩
  · intro it hcu
    unfold TodoItem.toMarkdown
    rw [if_neg (show ¬ (it.category ≠ [] ∧ it.category ≠ uncat) from fun hh => hh.2 hcu),
      List.append_nil]
  · intro it h1 h2
    unfold TodoItem.toMarkdown
    rw [if_pos (show it.category ≠ [] ∧ it.category ≠ uncat from ⟨h1, h2⟩)]

/-- Witness: the amended C3 line shapes at concrete items. -/
theorem c3_checkbox_line_amended_witness :
    TodoItem.toMarkdown ⟨"t".data, false, uncat⟩ =
      '-' :: ' ' :: '[' :: (if false then 'x' else ' ') :: ']' :: ' ' :: "t".data ∧
    TodoItem.toMarkdown ⟨"t".data, false, "home".data⟩ =
      '-' :: ' ' :: '[' :: (if false then 'x' else ' ') :: ']' :: ' ' ::
        ("t".data ++ ' ' :: '#' :: "home".data) :=
  ⟨c3_checkbox_line_amended.1 ⟨"t".data, false, uncat⟩ rfl,
   c3_checkbox_line_amended.2.1 ⟨"t".data, false, "home".data⟩ (by decide) (by decide)⟩

/-! ## The TodoApp interaction state -/

/-- The navigable UI state of TodoApp: the store plus the current
category index and the selected item index. -/
structure AppState where
  todoList : TodoList
  currentCategoryIdx : Nat
  selectedIdx : Nat
deriving DecidableEq

/-- The item list of the currently displayed category. -/
def AppState.activeTodos (s : AppState) : List (Nat × TodoItem) :=
  s.todoList.getTodosByCategory (s.todoList.getCategories.getD s.currentCategoryIdx [])

/-- TodoApp.update_category_tabs: reset the category index to 0 when it
runs past the end of the category list. -/
def updateCategoryTabs (s : AppState) : AppState :=
  if s.currentCategoryIdx ≥ s.todoList.getCategories.length then
    { s with currentCategoryIdx := 0 }
  else s

/-- TodoApp.update_todo_list: when the selection runs past the end of
the current category's item list, clamp it to max(0, count - 1). -/
def updateTodoList (s : AppState) : AppState :=
  if s.todoList.getCategories = [] then s
  else if s.selectedIdx ≥ s.activeTodos.length then
    { s with selectedIdx := s.activeTodos.length - 1 }
  else s

/-- The operations of the key-dispatch state machine, including the
dialog confirmations (the dialogs themselves only capture the state the
confirmation uses). -/
inductive AppOp where
  | reload (files : List (List Char × Option (List Char)))
  | save
  | categoryPrev
  | categoryNext
  | moveUp
  | moveDown
  | toggle
  | addConfirm (text category : List Char)
  | editConfirm (newText newCategory : List Char)
  | deleteConfirm
deriving DecidableEq

@[simp] lemma updateTodoList_todoList (s : AppState) :
    (updateTodoList s).todoList = s.todoList := by
  unfold updateTodoList
  split
  · rfl
  split <;> rfl

@[simp] lemma updateTodoList_catIdx (s : AppState) :
    (updateTodoList s).currentCategoryIdx = s.currentCategoryIdx := by
  unfold updateTodoList
  split
  · rfl
  split <;> rfl

@[simp] lemma updateCategoryTabs_todoList (s : AppState) :
    (updateCategoryTabs s).todoList = s.todoList := by
  unfold updateCategoryTabs
  split <;> rfl

@[simp] lemma updateCategoryTabs_selectedIdx (s : AppState) :
    (updateCategoryTabs s).selectedIdx = s.selectedIdx := by
  unfold updateCategoryTabs
  split <;> rfl

lemma length_getCategories (tl : TodoList) :
    tl.getCategories.length = tl.categories.length :=
  List.length_insertionSort _ _

lemma mem_getCategories {c : List Char} {tl : TodoList} :
    c ∈ tl.getCategories ↔ c ∈ tl.categories :=
  List.mem_insertionSort _

lemma subset_insertSet (x : List Char) (l : List (List Char)) : l ⊆ insertSet x l :=
  fun c hc => mem_insertSet.mpr (Or.inl hc)

lemma loadLineStep_categories_subset (name : List Char) (s : TodoList) (line : List Char) :
    s.categories ⊆ (loadLineStep name s line).categories := by
  unfold loadLineStep
  cases matchTodoLine line with
  | none => exact fun c hc => hc
  | some p => exact subset_insertSet _ _

lemma loadFileLines_categories_subset (name : List Char) (lines : List (List Char)) :
    ∀ s : TodoList, s.categories ⊆ (loadFileLines name s lines).categories := by
  induction lines with
  | nil => intro s; exact fun c hc => hc
  | cons line rest ih =>
    intro s
    have hstep : loadFileLines name s (line :: rest) =
        loadFileLines name (loadLineStep name s line) rest := by
      unfold loadFileLines
      rw [List.foldl_cons]
    rw [hstep]
    exact fun c hc => ih (loadLineStep name s line) (loadLineStep_categories_subset name s line hc)

lemma loadGo_categories_subset (files : List (List Char × Option (List Char))) :
    ∀ s : TodoList, s.categories ⊆ (loadGo s files).1.categories := by
  induction files with
  | nil => intro s; exact fun c hc => hc
  | cons f rest ih =>
    intro s
    obtain ⟨name, c⟩ := f
    cases c with
    | none => exact fun c hc => hc
    | some content =>
      exact fun c hc =>
        ih (loadFileLines name s (splitLines content))
          (loadFileLines_categories_subset name (splitLines content) s hc)

lemma loadTodos_categories_subset (tl : TodoList) (files : List (List Char × Option (List Char))) :
    tl.categories ⊆ ((tl.loadTodos files).1).categories :=
  loadGo_categories_subset files { tl with todos := [], todoFiles := [] }

lemma saveTodos_categories (tl : TodoList) : (tl.saveTodos.1).categories = tl.categories := rfl

lemma deleteTodo_categories (tl : TodoList) (id : Nat) :
    (tl.deleteTodo id).categories = tl.categories := by
  unfold TodoList.deleteTodo
  split <;> rfl

/-- A default entry for guarded list indexing (the Python code indexes
only under bounds guards). -/
def dfltEntry : Nat × TodoItem := (0, ⟨[], false, []⟩)

/-- One transition of TodoApp.handle_input / a dialog confirmation,
mirroring mdtodo.py lines 291-374 and the dialog on_save/on_yes
callbacks. -/
def step (s : AppState) (op : AppOp) : AppState :=
  match op with
  | .reload files =>
    let r := s.todoList.loadTodos files
    match r.2 with
    | some _ => { s with todoList := r.1 }
    | none => updateTodoList (updateCategoryTabs { s with todoList := r.1 })
  | .save => { s with todoList := s.todoList.saveTodos.1 }
  | .categoryPrev =>
    let cats := s.todoList.getCategories
    if cats ≠ [] then
      updateTodoList (updateCategoryTabs
        { s with
            currentCategoryIdx := (s.currentCategoryIdx + cats.length - 1) % cats.length
            selectedIdx := 0 })
    else s
  | .categoryNext =>
    let cats := s.todoList.getCategories
    if cats ≠ [] then
      updateTodoList (updateCategoryTabs
        { s with
            currentCategoryIdx := (s.currentCategoryIdx + 1) % cats.length
            selectedIdx := 0 })
    else s
  | .moveUp =>
    if 0 < s.selectedIdx then updateTodoList { s with selectedIdx := s.selectedIdx - 1 } else s
  | .moveDown =>
    let cats := s.todoList.getCategories
    if cats ≠ [] then
      if s.selectedIdx < s.activeTodos.length - 1 then
        updateTodoList { s with selectedIdx := s.selectedIdx + 1 }
      else s
    else s
  | .toggle =>
    let cats := s.todoList.getCategories
    if cats ≠ [] then
      let todos := s.activeTodos
      if todos ≠ [] ∧ s.selectedIdx < todos.length then
        let tid := (todos.getD s.selectedIdx dfltEntry).1
        updateTodoList
          { s with
              todoList :=
                { s.todoList with
                    todos := s.todoList.todos.map fun e =>
                      if e.1 = tid then (e.1, e.2.toggle) else e } }
      else s
    else s
  | .addConfirm text category =>
    let cat := if category = [] then uncat else category
    if text ≠ [] then
      let r := s.todoList.addTodo text cat
      let cats := r.1.getCategories
      let s1 : AppState :=
        { s with
            todoList := r.1
            currentCategoryIdx :=
              if cat ∈ cats then cats.findIdx (fun c => c = cat) else s.currentCategoryIdx }
      updateTodoList (updateCategoryTabs s1)
    else s
  | .editConfirm newText newCategory =>
    let cats := s.todoList.getCategories
    if cats ≠ [] then
      let todos := s.activeTodos
      if todos ≠ [] ∧ s.selectedIdx < todos.length then
        let tid := (todos.getD s.selectedIdx dfltEntry).1
        let newCat : List Char := if newCategory = [] then uncat else newCategory
        let tl1 : TodoList :=
          { s.todoList with
              todos := s.todoList.todos.map fun e =>
                if e.1 = tid then (e.1, (⟨newText, e.2.done, newCat⟩ : TodoItem)) else e }
        let cats1 := tl1.getCategories
        let s1 : AppState :=
          { s with
              todoList := tl1
              currentCategoryIdx :=
                if newCat ∈ cats1 then cats1.findIdx (fun c => c = newCat)
                else s.currentCategoryIdx }
        updateTodoList (updateCategoryTabs s1)
      else s
    else s
  | .deleteConfirm =>
    let cats := s.todoList.getCategories
    if cats ≠ [] then
      let todos := s.activeTodos
      if todos ≠ [] ∧ s.selectedIdx < todos.length then
        let tid := (todos.getD s.selectedIdx dfltEntry).1
        updateTodoList { s with todoList := s.todoList.deleteTodo tid }
      else s
    else s

/-! ## Claims C6 and C7: index clamping and category navigation -/

lemma updateCategoryTabs_catIdx_lt (s : AppState)
    (h : s.currentCategoryIdx < s.todoList.getCategories.length) :
    (updateCategoryTabs s).currentCategoryIdx = s.currentCategoryIdx := by
  unfold updateCategoryTabs
  rw [if_neg (by omega)]

lemma updateCategoryTabs_idx_lt (s : AppState) (h : s.todoList.getCategories ≠ []) :
    (updateCategoryTabs s).currentCategoryIdx < s.todoList.getCategories.length := by
  unfold updateCategoryTabs
  split
  · exact List.length_pos.mpr h
  · rename_i h2
    omega

lemma updateTodoList_selectedIdx_zero (s : AppState) (h0 : s.selectedIdx = 0) :
    (updateTodoList s).selectedIdx = 0 := by
  unfold updateTodoList
  split
  · exact h0
  split
  · rename_i h2
    show s.activeTodos.length - 1 = 0
    rw [h0] at h2
    omega
  · exact h0

lemma updateTodoList_eq_self_of_lt (s : AppState)
    (h : s.selectedIdx < s.activeTodos.length) : updateTodoList s = s := by
  unfold updateTodoList
  split
  · rfl
  · rw [if_neg (by omega)]

/-- The category navigation transitions: wrap-around index arithmetic
and reset of the selection. -/
lemma catNav_spec (s : AppState) (h : s.todoList.getCategories ≠ []) :
    (step s .categoryNext).currentCategoryIdx =
      (s.currentCategoryIdx + 1) % s.todoList.getCategories.length ∧
    (step s .categoryNext).selectedIdx = 0 ∧
    (step s .categoryPrev).currentCategoryIdx =
      (s.currentCategoryIdx + s.todoList.getCategories.length - 1) %
        s.todoList.getCategories.length ∧
    (step s .categoryPrev).selectedIdx = 0 := by
  have hpos : 0 < s.todoList.getCategories.length := List.length_pos.mpr h
  have hstepN : step s .categoryNext =
      updateTodoList (updateCategoryTabs
        { s with
            currentCategoryIdx :=
              (s.currentCategoryIdx + 1) % s.todoList.getCategories.length
            selectedIdx := 0 }) := by
    show (if s.todoList.getCategories ≠ [] then _ else s) = _
    rw [if_pos h]
  have hstepP : step s .categoryPrev =
      updateTodoList (updateCategoryTabs
        { s with
            currentCategoryIdx :=
              (s.currentCategoryIdx + s.todoList.getCategories.length - 1) %
                s.todoList.getCategories.length
            selectedIdx := 0 }) := by
    show (if s.todoList.getCategories ≠ [] then _ else s) = _
    rw [if_pos h]
  refine ⟨?_, ?_, ?_, ?_⟩
  · rw [hstepN, updateTodoList_catIdx, updateCategoryTabs_catIdx_lt]
    exact Nat.mod_lt _ hpos
  · rw [hstepN]
    exact updateTodoList_selectedIdx_zero _ (by rw [updateCategoryTabs_selectedIdx])
  · rw [hstepP, updateTodoList_catIdx, updateCategoryTabs_catIdx_lt]
    exact Nat.mod_lt _ hpos
  · rw [hstepP]
    exact updateTodoList_selectedIdx_zero _ (by rw [updateCategoryTabs_selectedIdx])

/-- C7: with a nonempty category list, category_next and category_prev
set the category index to (index plus or minus one) modulo the category
count (the minus-one form is stated over the integers, matching Python
arithmetic) and reset the selection to 0; next on the last category
wraps to 0. -/
theorem c7_category_nav (s : AppState) (h : s.todoList.getCategories ≠ []) :
    (step s .categoryNext).currentCategoryIdx =
      (s.currentCategoryIdx + 1) % s.todoList.getCategories.length ∧
    (step s .categoryNext).selectedIdx = 0 ∧
    ((step s .categoryPrev).currentCategoryIdx : Int) =
      ((s.currentCategoryIdx : Int) - 1) % (s.todoList.getCategories.length : Int) ∧
    (step s .categoryPrev).selectedIdx = 0 ∧
    (s.currentCategoryIdx = s.todoList.getCategories.length - 1 →
      (step s .categoryNext).currentCategoryIdx = 0) := by
  obtain ⟨hn1, hn2, hp1, hp2⟩ := catNav_spec s h
  have hpos : 0 < s.todoList.getCategories.length := List.length_pos.mpr h
  refine ⟨hn1, hn2, ?_, hp2, ?_⟩
  · rw [hp1]
    push_cast [Nat.sub_add_cancel, show 1 ≤ s.currentCategoryIdx +
      s.todoList.getCategories.length by omega]
    rw [show ((s.currentCategoryIdx : Int) + s.todoList.getCategories.length - 1) =
      ((s.currentCategoryIdx : Int) - 1) + s.todoList.getCategories.length by ring]
    exact Int.add_emod_self
  · intro hlast
    rw [hn1, hlast, Nat.sub_add_cancel hpos, Nat.mod_self]

/-- Witness: category navigation on a concrete two-category store. -/
theorem c7_category_nav_witness :
    (step ⟨⟨[], [], [], [uncat, "a".data], 0⟩, 1, 5⟩ .categoryNext).currentCategoryIdx =
      (1 + 1) %
        (⟨[], [], [], [uncat, "a".data], 0⟩ : TodoList).getCategories.length ∧
    (step ⟨⟨[], [], [], [uncat, "a".data], 0⟩, 1, 5⟩ .categoryNext).selectedIdx = 0 ∧
    (((step ⟨⟨[], [], [], [uncat, "a".data], 0⟩, 1, 5⟩ .categoryPrev).currentCategoryIdx :
        Int) =
      ((1 : Int) - 1) %
        ((⟨[], [], [], [uncat, "a".data], 0⟩ : TodoList).getCategories.length : Int)) ∧
    (step ⟨⟨[], [], [], [uncat, "a".data], 0⟩, 1, 5⟩ .categoryPrev).selectedIdx = 0 ∧
    (1 = (⟨[], [], [], [uncat, "a".data], 0⟩ : TodoList).getCategories.length - 1 →
      (step ⟨⟨[], [], [], [uncat, "a".data], 0⟩, 1, 5⟩ .categoryNext).currentCategoryIdx =
        0) :=
  c7_category_nav ⟨⟨[], [], [], [uncat, "a".data], 0⟩, 1, 5⟩ (by decide)

/-- The index invariant: the category index is in range and the
selection is in range, or left at 0 when the displayed list is empty. -/
@[reducible] def IndicesOk (s : AppState) : Prop :=
  s.currentCategoryIdx < s.todoList.getCategories.length ∧
  (s.selectedIdx < s.activeTodos.length ∨ (s.activeTodos = [] ∧ s.selectedIdx = 0))

/-- Side condition: a reload only re-clamps when every file is
readable (an unreadable file raises before the clamping calls). -/
@[reducible] def OpOk : AppOp → Prop
  | .reload files => ∀ f ∈ files, f.2 ≠ none
  | _ => True

lemma getCategories_ne_nil {tl : TodoList} (h : tl.categories ≠ []) :
    tl.getCategories ≠ [] := by
  intro h0
  have hlen := length_getCategories tl
  rw [h0] at hlen
  exact h (List.length_eq_zero.mp hlen.symm)

lemma getCategories_congr {tl1 tl2 : TodoList} (h : tl1.categories = tl2.categories) :
    tl1.getCategories = tl2.getCategories := by
  unfold TodoList.getCategories
  rw [h]

lemma categories_ne_nil_of_inv {s : AppState} (h : IndicesOk s) :
    s.todoList.categories ≠ [] := by
  intro h0
  have hlen := length_getCategories s.todoList
  rw [h0] at hlen
  simp only [List.length_nil] at hlen
  have h1 := h.1
  omega

lemma updateTodoList_establish (s : AppState)
    (hcat : s.currentCategoryIdx < s.todoList.getCategories.length) :
    IndicesOk (updateTodoList s) := by
  constructor
  · rw [updateTodoList_catIdx, updateTodoList_todoList]
    exact hcat
  · have hact : (updateTodoList s).activeTodos = s.activeTodos := by
      unfold AppState.activeTodos
      rw [updateTodoList_todoList, updateTodoList_catIdx]
    rw [hact]
    have hne : s.todoList.getCategories ≠ [] := by
      intro h0
      rw [h0] at hcat
      simp at hcat
    unfold updateTodoList
    rw [if_neg hne]
    split
    · rename_i hge
      by_cases hz : s.activeTodos.length = 0
      · right
        refine ⟨List.length_eq_zero.mp hz, ?_⟩
        show s.activeTodos.length - 1 = 0
        omega
      · left
        show s.activeTodos.length - 1 < s.activeTodos.length
        omega
    · rename_i hlt
      left
      show s.selectedIdx < s.activeTodos.length
      omega

lemma establish_both (s : AppState) (h : s.todoList.getCategories ≠ []) :
    IndicesOk (updateTodoList (updateCategoryTabs s)) := by
  apply updateTodoList_establish
  rw [updateCategoryTabs_todoList]
  exact updateCategoryTabs_idx_lt s h

lemma loadGo_no_error : ∀ (files : List (List Char × Option (List Char))),
    (∀ f ∈ files, f.2 ≠ none) → ∀ s : TodoList, (loadGo s files).2 = none := by
  intro files
  induction files with
  | nil => intro h s; rfl
  | cons f rest ih =>
    intro h s
    obtain ⟨name, c⟩ := f
    cases c with
    | none => exact absurd rfl (h (name, none) (List.mem_cons_self _ _))
    | some content => exact ih (fun x hx => h x (List.mem_cons_of_mem _ hx)) _

lemma step_preserves_indicesOk (s : AppState) (op : AppOp) (hinv : IndicesOk s)
    (hop : OpOk op) : IndicesOk (step s op) := by
  have hcats : s.todoList.getCategories ≠ [] :=
    getCategories_ne_nil (categories_ne_nil_of_inv hinv)
  cases op with
  | reload files =>
    have herr : (s.todoList.loadTodos files).2 = none := loadGo_no_error files hop _
    have hstep : step s (.reload files) =
        updateTodoList (updateCategoryTabs
          { s with todoList := (s.todoList.loadTodos files).1 }) := by
      show (match (s.todoList.loadTodos files).2 with
        | some _ => { s with todoList := (s.todoList.loadTodos files).1 }
        | none =>
          updateTodoList (updateCategoryTabs
            { s with todoList := (s.todoList.loadTodos files).1 })) = _
      rw [herr]
    rw [hstep]
    apply establish_both
    show ((s.todoList.loadTodos files).1).getCategories ≠ []
    apply getCategories_ne_nil
    obtain ⟨x, hx⟩ := List.exists_mem_of_ne_nil _ (categories_ne_nil_of_inv hinv)
    exact List.ne_nil_of_mem (loadTodos_categories_subset s.todoList files hx)
  | save => exact hinv
  | categoryPrev =>
    have hstep : step s .categoryPrev =
        updateTodoList (updateCategoryTabs
          { s with
              currentCategoryIdx :=
                (s.currentCategoryIdx + s.todoList.getCategories.length - 1) %
                  s.todoList.getCategories.length
              selectedIdx := 0 }) := by
      show (if s.todoList.getCategories ≠ [] then _ else s) = _
      rw [if_pos hcats]
    rw [hstep]
    exact establish_both _ hcats
  | categoryNext =>
    have hstep : step s .categoryNext =
        updateTodoList (updateCategoryTabs
          { s with
              currentCategoryIdx :=
                (s.currentCategoryIdx + 1) % s.todoList.getCategories.length
              selectedIdx := 0 }) := by
      show (if s.todoList.getCategories ≠ [] then _ else s) = _
      rw [if_pos hcats]
    rw [hstep]
    exact establish_both _ hcats
  | moveUp =>
    show IndicesOk (if 0 < s.selectedIdx then
      updateTodoList { s with selectedIdx := s.selectedIdx - 1 } else s)
    split
    · exact updateTodoList_establish _ hinv.1
    · exact hinv
  | moveDown =>
    show IndicesOk (if s.todoList.getCategories ≠ [] then
      (if s.selectedIdx < s.activeTodos.length - 1 then
        updateTodoList { s with selectedIdx := s.selectedIdx + 1 } else s)
      else s)
    rw [if_pos hcats]
    by_cases h2 : s.selectedIdx < s.activeTodos.length - 1
    · rw [if_pos h2]
      exact updateTodoList_establish _ hinv.1
    · rw [if_neg h2]
      exact hinv
  | toggle =>
    show IndicesOk (if s.todoList.getCategories ≠ [] then
      (if s.activeTodos ≠ [] ∧ s.selectedIdx < s.activeTodos.length then
        updateTodoList _ else s)
      else s)
    rw [if_pos hcats]
    by_cases h2 : s.activeTodos ≠ [] ∧ s.selectedIdx < s.activeTodos.length
    · rw [if_pos h2]
      exact updateTodoList_establish _ hinv.1
    · rw [if_neg h2]
      exact hinv
  | addConfirm text category =>
    show IndicesOk (if text ≠ [] then updateTodoList (updateCategoryTabs _) else s)
    split
    · apply establish_both
      apply getCategories_ne_nil
      obtain ⟨x, hx⟩ := List.exists_mem_of_ne_nil _ (categories_ne_nil_of_inv hinv)
      exact List.ne_nil_of_mem (subset_insertSet _ _ hx)
    · exact hinv
  | editConfirm newText newCategory =>
    show IndicesOk (if s.todoList.getCategories ≠ [] then
      (if s.activeTodos ≠ [] ∧ s.selectedIdx < s.activeTodos.length then
        updateTodoList (updateCategoryTabs _) else s)
      else s)
    rw [if_pos hcats]
    by_cases h2 : s.activeTodos ≠ [] ∧ s.selectedIdx < s.activeTodos.length
    · rw [if_pos h2]
      exact establish_both _ hcats
    · rw [if_neg h2]
      exact hinv
  | deleteConfirm =>
    show IndicesOk (if s.todoList.getCategories ≠ [] then
      (if s.activeTodos ≠ [] ∧ s.selectedIdx < s.activeTodos.length then
        updateTodoList _ else s)
      else s)
    rw [if_pos hcats]
    by_cases h2 : s.activeTodos ≠ [] ∧ s.selectedIdx < s.activeTodos.length
    · rw [if_pos h2]
      apply updateTodoList_establish
      have hcg : (s.todoList.deleteTodo
          (s.activeTodos.getD s.selectedIdx dfltEntry).1).getCategories =
          s.todoList.getCategories :=
        getCategories_congr (deleteTodo_categories _ _)
      show s.currentCategoryIdx < (s.todoList.deleteTodo
        (s.activeTodos.getD s.selectedIdx dfltEntry).1).getCategories.length
      rw [hcg]
      exact hinv.1
    · rw [if_neg h2]
      exact hinv

/-- C6 counterexample: switching (category_next) from a category with
4 items and selection 3 to a category with only 2 items sets the
selection to 0, not to max(0, count - 1) = 1 as the claim states. -/
theorem c6_clamp_cex :
    (step ⟨⟨[], [(0, ⟨"a0".data, false, "a".data⟩), (1, ⟨"a1".data, false, "a".data⟩),
        (2, ⟨"a2".data, false, "a".data⟩), (3, ⟨"a3".data, false, "a".data⟩),
        (4, ⟨"b0".data, false, "b".data⟩), (5, ⟨"b1".data, false, "b".data⟩)], [],
        [uncat, "a".data, "b".data], 6⟩, 0, 3⟩ .categoryNext).currentCategoryIdx = 1 ∧
    (step ⟨⟨[], [(0, ⟨"a0".data, false, "a".data⟩), (1, ⟨"a1".data, false, "a".data⟩),
        (2, ⟨"a2".data, false, "a".data⟩), (3, ⟨"a3".data, false, "a".data⟩),
        (4, ⟨"b0".data, false, "b".data⟩), (5, ⟨"b1".data, false, "b".data⟩)], [],
        [uncat, "a".data, "b".data], 6⟩, 0, 3⟩ .categoryNext).activeTodos.length = 2 ∧
    (step ⟨⟨[], [(0, ⟨"a0".data, false, "a".data⟩), (1, ⟨"a1".data, false, "a".data⟩),
        (2, ⟨"a2".data, false, "a".data⟩), (3, ⟨"a3".data, false, "a".data⟩),
        (4, ⟨"b0".data, false, "b".data⟩), (5, ⟨"b1".data, false, "b".data⟩)], [],
        [uncat, "a".data, "b".data], 6⟩, 0, 3⟩ .categoryNext).selectedIdx = 0 ∧
    (0 : Nat) ≠ max 0 (2 - 1) := by
  decide

/-- C6 amended: after every modeled operation (given the invariant
before it, and readable files on reload) the category index stays in
[0, count-1] and the selection stays in range or at 0 on an empty list;
switching categories resets the selection to 0; when the displayed item
list has shrunk to or below the selection, the re-clamp sets the
selection to max(0, count-1). -/
theorem c6_clamp_amended :
    (∀ (s : AppState) (op : AppOp), IndicesOk s → OpOk op → IndicesOk (step s op)) ∧
    (∀ s : AppState, s.todoList.getCategories ≠ [] →
      (step s .categoryNext).selectedIdx = 0 ∧ (step s .categoryPrev).selectedIdx = 0) ∧
    (∀ s : AppState, s.todoList.getCategories ≠ [] →
      s.activeTodos.length ≤ s.selectedIdx →
      (updateTodoList s).selectedIdx = s.activeTodos.length - 1) := by
  refine ⟨step_preserves_indicesOk, ?_, ?_⟩
  · intro s h
    obtain ⟨-, h2, -, h4⟩ := catNav_spec s h
    exact ⟨h2, h4⟩
  · intro s hne hge
    unfold updateTodoList
    rw [if_neg hne, if_pos (by omega)]

/-- Witness: the amended C6 at a concrete store and operation. -/
theorem c6_clamp_amended_witness :
    IndicesOk (step ⟨⟨[], [(0, ⟨"a0".data, false, "a".data⟩)], [],
      [uncat, "a".data], 1⟩, 0, 0⟩ .toggle) ∧
    (step ⟨⟨[], [(0, ⟨"a0".data, false, "a".data⟩)], [],
        [uncat, "a".data], 1⟩, 0, 0⟩ .categoryNext).selectedIdx = 0 ∧
    (step ⟨⟨[], [(0, ⟨"a0".data, false, "a".data⟩)], [],
        [uncat, "a".data], 1⟩, 0, 0⟩ .categoryPrev).selectedIdx = 0 :=
  ⟨c6_clamp_amended.1 ⟨⟨[], [(0, ⟨"a0".data, false, "a".data⟩)], [],
      [uncat, "a".data], 1⟩, 0, 0⟩ .toggle (by decide) (by decide),
   c6_clamp_amended.2.1 ⟨⟨[], [(0, ⟨"a0".data, false, "a".data⟩)], [],
      [uncat, "a".data], 1⟩, 0, 0⟩ (by decide)⟩

/-! ## Claim C9: toggle only flips the selected item's done flag -/

lemma getTodosByCategory_toggleMap (tl : TodoList) (tid : Nat) (c : List Char) :
    TodoList.getTodosByCategory
      { tl with todos := tl.todos.map fun e => if e.1 = tid then (e.1, e.2.toggle) else e } c =
      (tl.getTodosByCategory c).map fun e => if e.1 = tid then (e.1, e.2.toggle) else e := by
  unfold TodoList.getTodosByCategory
  show (tl.todos.map _).filter _ = _
  rw [List.map_filter]
  congr 1
  apply List.filter_congr
  intro e he
  by_cases hid : e.1 = tid
  · simp [Function.comp, hid, TodoItem.toggle]
  · simp [Function.comp, hid]

/-- C9: the toggle action on a validly selected item negates only that
item's done flag: identities and order of the items, every item's text
and category, the categories set, the origin map, the directory, and
both UI indices are unchanged; the selected item reappears with its
done flag negated and every other item is untouched. -/
theorem c9_toggle_frame (s : AppState) (hcats : s.todoList.getCategories ≠ [])
    (h1 : s.activeTodos ≠ []) (h2 : s.selectedIdx < s.activeTodos.length) :
    (step s .toggle).todoList.todos.map (fun p => p.1) =
      s.todoList.todos.map (fun p => p.1) ∧
    (step s .toggle).todoList.todos.map (fun p => (p.1, p.2.text, p.2.category)) =
      s.todoList.todos.map (fun p => (p.1, p.2.text, p.2.category)) ∧
    (step s .toggle).todoList.categories = s.todoList.categories ∧
    (step s .toggle).todoList.todoFiles = s.todoList.todoFiles ∧
    (step s .toggle).todoList.directory = s.todoList.directory ∧
    (step s .toggle).currentCategoryIdx = s.currentCategoryIdx ∧
    (step s .toggle).selectedIdx = s.selectedIdx ∧
    ((s.activeTodos.getD s.selectedIdx dfltEntry).1,
        (s.activeTodos.getD s.selectedIdx dfltEntry).2.toggle) ∈
      (step s .toggle).todoList.todos ∧
    (∀ p ∈ s.todoList.todos, p.1 ≠ (s.activeTodos.getD s.selectedIdx dfltEntry).1 →
      p ∈ (step s .toggle).todoList.todos) := by
  have hstep : step s .toggle =
      updateTodoList
        { s with todoList :=
            { s.todoList with todos := s.todoList.todos.map fun e =>
                if e.1 = (s.activeTodos.getD s.selectedIdx dfltEntry).1 then
                  (e.1, e.2.toggle) else e } } := by
    show (if s.todoList.getCategories ≠ [] then
      (if s.activeTodos ≠ [] ∧ s.selectedIdx < s.activeTodos.length then _ else s)
      else s) = _
    rw [if_pos hcats, if_pos ⟨h1, h2⟩]
  have hact : ({ s with todoList :=
      { s.todoList with todos := s.todoList.todos.map fun e =>
          if e.1 = (s.activeTodos.getD s.selectedIdx dfltEntry).1 then
            (e.1, e.2.toggle) else e } } : AppState).activeTodos =
      s.activeTodos.map fun e =>
        if e.1 = (s.activeTodos.getD s.selectedIdx dfltEntry).1 then (e.1, e.2.toggle)
        else e := by
    show TodoList.getTodosByCategory _ _ = _
    rw [show ({ s.todoList with todos := s.todoList.todos.map fun e =>
        if e.1 = (s.activeTodos.getD s.selectedIdx dfltEntry).1 then (e.1, e.2.toggle)
        else e } : TodoList).getCategories = s.todoList.getCategories from
      getCategories_congr rfl]
    exact getTodosByCategory_toggleMap s.todoList _ _
  have hsel : step s .toggle =
      { s with todoList :=
          { s.todoList with todos := s.todoList.todos.map fun e =>
              if e.1 = (s.activeTodos.getD s.selectedIdx dfltEntry).1 then
                (e.1, e.2.toggle) else e } } := by
    rw [hstep]
    apply updateTodoList_eq_self_of_lt
    show s.selectedIdx < _
    rw [hact, List.length_map]
    exact h2
  rw [hsel]
  have hmemE : (s.activeTodos.getD s.selectedIdx dfltEntry) ∈ s.todoList.todos := by
    have hg : s.activeTodos.getD s.selectedIdx dfltEntry =
        s.activeTodos.get ⟨s.selectedIdx, h2⟩ := List.getD_eq_get _ _ h2
    have : s.activeTodos.getD s.selectedIdx dfltEntry ∈ s.activeTodos := by
      rw [hg]
      exact List.get_mem _ _ _
    exact List.mem_of_mem_filter this
  refine ⟨?_, ?_, rfl, rfl, rfl, rfl, rfl, ?_, ?_⟩
  · show (s.todoList.todos.map _).map _ = _
    rw [List.map_map]
    apply List.map_eq_map_iff.mpr
    intro e he
    simp only [Function.comp_apply]
    by_cases hid : e.1 = (s.activeTodos.getD s.selectedIdx dfltEntry).1
    · rw [if_pos hid]
    · rw [if_neg hid]
  · show (s.todoList.todos.map _).map _ = _
    rw [List.map_map]
    apply List.map_eq_map_iff.mpr
    intro e he
    simp only [Function.comp_apply]
    by_cases hid : e.1 = (s.activeTodos.getD s.selectedIdx dfltEntry).1
    · rw [if_pos hid]
      rfl
    · rw [if_neg hid]
  · show _ ∈ s.todoList.todos.map _
    refine List.mem_map.mpr ⟨s.activeTodos.getD s.selectedIdx dfltEntry, hmemE, ?_⟩
    rw [if_pos rfl]
  · intro p hp hne
    show p ∈ s.todoList.todos.map _
    refine List.mem_map.mpr ⟨p, hp, ?_⟩
    rw [if_neg hne]

/-- Witness: the toggle frame property on a concrete two-item store. -/
theorem c9_toggle_frame_witness :
    (step ⟨⟨[], [(0, ⟨"t0".data, false, uncat⟩), (1, ⟨"t1".data, false, uncat⟩)],
        [(0, "uncategorized.md".data)], [uncat], 2⟩, 0, 1⟩ .toggle).todoList.todos.map
      (fun p => p.1) =
      (⟨⟨[], [(0, ⟨"t0".data, false, uncat⟩), (1, ⟨"t1".data, false, uncat⟩)],
        [(0, "uncategorized.md".data)], [uncat], 2⟩, 0, 1⟩ :
          AppState).todoList.todos.map (fun p => p.1) ∧
    (step ⟨⟨[], [(0, ⟨"t0".data, false, uncat⟩), (1, ⟨"t1".data, false, uncat⟩)],
        [(0, "uncategorized.md".data)], [uncat], 2⟩, 0, 1⟩ .toggle).todoList.todos.map
      (fun p => (p.1, p.2.text, p.2.category)) =
      (⟨⟨[], [(0, ⟨"t0".data, false, uncat⟩), (1, ⟨"t1".data, false, uncat⟩)],
        [(0, "uncategorized.md".data)], [uncat], 2⟩, 0, 1⟩ :
          AppState).todoList.todos.map (fun p => (p.1, p.2.text, p.2.category)) ∧
    (step ⟨⟨[], [(0, ⟨"t0".data, false, uncat⟩), (1, ⟨"t1".data, false, uncat⟩)],
        [(0, "uncategorized.md".data)], [uncat], 2⟩, 0, 1⟩ .toggle).todoList.categories =
      [uncat] ∧
    (step ⟨⟨[], [(0, ⟨"t0".data, false, uncat⟩), (1, ⟨"t1".data, false, uncat⟩)],
        [(0, "uncategorized.md".data)], [uncat], 2⟩, 0, 1⟩ .toggle).todoList.todoFiles =
      [(0, "uncategorized.md".data)] := by
  obtain ⟨ha, hb, hc, hd, -⟩ := c9_toggle_frame
    ⟨⟨[], [(0, ⟨"t0".data, false, uncat⟩), (1, ⟨"t1".data, false, uncat⟩)],
      [(0, "uncategorized.md".data)], [uncat], 2⟩, 0, 1⟩ (by decide) (by decide) (by decide)
  exact ⟨ha, hb, hc, hd⟩

/-! ## Claim C8: the categories set never shrinks -/

lemma step_categories_subset (s : AppState) (op : AppOp) :
    s.todoList.categories ⊆ (step s op).todoList.categories := by
  cases op with
  | reload files =>
    have hstep : step s (.reload files) =
        (match (s.todoList.loadTodos files).2 with
          | some _ => { s with todoList := (s.todoList.loadTodos files).1 }
          | none =>
            updateTodoList
              (updateCategoryTabs { s with todoList := (s.todoList.loadTodos files).1 })) :=
      rfl
    rw [hstep]
    cases hr : (s.todoList.loadTodos files).2 with
    | none =>
      simp only [updateTodoList_todoList, updateCategoryTabs_todoList]
      exact loadTodos_categories_subset s.todoList files
    | some e =>
      exact loadTodos_categories_subset s.todoList files
  | save =>
    show s.todoList.categories ⊆ (s.todoList.saveTodos.1).categories
    rw [saveTodos_categories]
    exact fun c hc => hc
  | categoryPrev =>
    show s.todoList.categories ⊆
      (if s.todoList.getCategories ≠ [] then updateTodoList (updateCategoryTabs _)
        else s).todoList.categories
    split
    · simp only [updateTodoList_todoList, updateCategoryTabs_todoList]
      exact fun c hc => hc
    · exact fun c hc => hc
  | categoryNext =>
    show s.todoList.categories ⊆
      (if s.todoList.getCategories ≠ [] then updateTodoList (updateCategoryTabs _)
        else s).todoList.categories
    split
    · simp only [updateTodoList_todoList, updateCategoryTabs_todoList]
      exact fun c hc => hc
    · exact fun c hc => hc
  | moveUp =>
    show s.todoList.categories ⊆
      (if 0 < s.selectedIdx then updateTodoList _ else s).todoList.categories
    split
    · simp only [updateTodoList_todoList]
      exact fun c hc => hc
    · exact fun c hc => hc
  | moveDown =>
    show s.todoList.categories ⊆
      (if s.todoList.getCategories ≠ [] then
        (if s.selectedIdx < s.activeTodos.length - 1 then updateTodoList _ else s)
       else s).todoList.categories
    split
    · split
      · simp only [updateTodoList_todoList]
        exact fun c hc => hc
      · exact fun c hc => hc
    · exact fun c hc => hc
  | toggle =>
    show s.todoList.categories ⊆
      (if s.todoList.getCategories ≠ [] then
        (if s.activeTodos ≠ [] ∧ s.selectedIdx < s.activeTodos.length then
          updateTodoList _ else s)
       else s).todoList.categories
    split
    · split
      · simp only [updateTodoList_todoList]
        exact fun c hc => hc
      · exact fun c hc => hc
    · exact fun c hc => hc
  | addConfirm text category =>
    show s.todoList.categories ⊆
      (if text ≠ [] then updateTodoList (updateCategoryTabs _) else s).todoList.categories
    split
    · simp only [updateTodoList_todoList, updateCategoryTabs_todoList]
      exact subset_insertSet _ _
    · exact fun c hc => hc
  | editConfirm newText newCategory =>
    show s.todoList.categories ⊆
      (if s.todoList.getCategories ≠ [] then
        (if s.activeTodos ≠ [] ∧ s.selectedIdx < s.activeTodos.length then
          updateTodoList (updateCategoryTabs _) else s)
       else s).todoList.categories
    split
    · split
      · simp only [updateTodoList_todoList, updateCategoryTabs_todoList]
        exact fun c hc => hc
      · exact fun c hc => hc
    · exact fun c hc => hc
  | deleteConfirm =>
    show s.todoList.categories ⊆
      (if s.todoList.getCategories ≠ [] then
        (if s.activeTodos ≠ [] ∧ s.selectedIdx < s.activeTodos.length then
          updateTodoList _ else s)
       else s).todoList.categories
    split
    · split
      · simp only [updateTodoList_todoList]
        show s.todoList.categories ⊆ (s.todoList.deleteTodo _).categories
        rw [deleteTodo_categories]
        exact fun c hc => hc
      · exact fun c hc => hc
    · exact fun c hc => hc

/-- C8: the categories set always contains "uncategorized" and never
shrinks: every store operation (load, save, add, delete) and every UI
transition (including edit and delete confirmation) maps the categories
set to a superset, and a freshly initialized store contains
"uncategorized". -/
theorem c8_categories_monotone :
    (∀ (tl : TodoList) (files : List (List Char × Option (List Char))),
      tl.categories ⊆ ((tl.loadTodos files).1).categories) ∧
    (∀ tl : TodoList, tl.categories ⊆ (tl.saveTodos.1).categories) ∧
    (∀ (tl : TodoList) (text category : List Char),
      tl.categories ⊆ ((tl.addTodo text category).1).categories) ∧
    (∀ (tl : TodoList) (id : Nat), tl.categories ⊆ (tl.deleteTodo id).categories) ∧
    (∀ (s : AppState) (op : AppOp),
      s.todoList.categories ⊆ (step s op).todoList.categories) ∧
    (∀ (directory : List Char) (files : List (List Char × Option (List Char))),
      uncat ∈ ((TodoList.init directory files).1).categories) := by
  refine ⟨loadTodos_categories_subset, ?_, ?_, ?_, step_categories_subset, ?_⟩
  · intro tl
    rw [saveTodos_categories]
    exact fun c hc => hc
  · intro tl text category
    exact subset_insertSet _ _
  · intro tl id
    rw [deleteTodo_categories]
    exact fun c hc => hc
  · intro directory files
    exact loadTodos_categories_subset ⟨directory, [], [], [uncat], 0⟩ files
      (List.mem_singleton.mpr rfl)


/-! ### Claim C10: the origin dictionary only refers to existing items -/

/-- Every key of the todo_files origin dictionary is the identity of an
item currently in the store. -/
@[reducible] def OriginInv (tl : TodoList) : Prop :=
  ∀ p ∈ tl.todoFiles, p.1 ∈ tl.todos.map (fun e => e.1)

theorem loadLineStep_originInv (name : List Char) (s : TodoList) (line : List Char)
    (h : OriginInv s) : OriginInv (loadLineStep name s line) := by
  unfold loadLineStep
  cases hml : matchTodoLine line with
  | none => exact h
  | some p =>
    obtain ⟨d, t, g⟩ := p
    intro q hq
    rw [List.map_append]
    rcases List.mem_append.mp hq with hq1 | hq1
    · exact List.mem_append_left _ (h q hq1)
    · rw [List.mem_singleton] at hq1
      subst hq1
      exact List.mem_append_right _ (by simp)

theorem loadFileLines_originInv (name : List Char) :
    ∀ (lines : List (List Char)) (s : TodoList), OriginInv s →
      OriginInv (loadFileLines name s lines) := by
  intro lines
  induction lines with
  | nil => intro s h; exact h
  | cons l rest ih =>
    intro s h
    show OriginInv (List.foldl (loadLineStep name) (loadLineStep name s l) rest)
    exact ih _ (loadLineStep_originInv name s l h)

theorem loadGo_originInv :
    ∀ (files : List (List Char × Option (List Char))) (s : TodoList),
      OriginInv s → OriginInv (loadGo s files).1 := by
  intro files
  induction files with
  | nil => intro s h; exact h
  | cons f rest ih =>
    intro s h
    obtain ⟨name, oc⟩ := f
    cases oc with
    | none => exact h
    | some content =>
      show OriginInv (loadGo (loadFileLines name s (splitLines content)) rest).1
      exact ih _ (loadFileLines_originInv name _ s h)

theorem keys_setKV (l : List (Nat × List Char)) (k : Nat) (v : List Char) :
    ∀ k2 ∈ (setKV l k v).map (fun e => e.1),
      k2 ∈ l.map (fun e => e.1) ∨ k2 = k := by
  unfold setKV
  split
  · rename_i hany
    intro k2 hk2
    rw [List.map_map] at hk2
    obtain ⟨e, he, hek⟩ := List.mem_map.mp hk2
    simp only [Function.comp_apply] at hek
    by_cases hc : e.1 = k
    · rw [if_pos hc] at hek
      exact Or.inr hek.symm
    · rw [if_neg hc] at hek
      exact Or.inl (hek ▸ List.mem_map_of_mem _ he)
  · intro k2 hk2
    rw [List.map_append] at hk2
    rcases List.mem_append.mp hk2 with hh | hh
    · exact Or.inl hh
    · right
      simpa using hh

theorem saveFold_keys (todos : List (Nat × TodoItem)) :
    ∀ (acc : List (Nat × List Char) × List (List Char × List TodoItem)),
      ∀ k ∈ ((todos.foldl saveStep acc).1).map (fun e => e.1),
        k ∈ acc.1.map (fun e => e.1) ∨ k ∈ todos.map (fun e => e.1) := by
  induction todos with
  | nil => intro acc k hk; exact Or.inl hk
  | cons e rest ih =>
    intro acc k hk
    rw [List.foldl_cons] at hk
    rcases ih (saveStep acc e) k hk with hh | hh
    · unfold saveStep at hh
      split at hh
      · rcases keys_setKV acc.1 e.1 _ k hh with h2 | h2
        · exact Or.inl h2
        · right
          rw [h2, List.map_cons]
          exact List.mem_cons_self _ _
      · exact Or.inl hh
    · right
      rw [List.map_cons]
      exact List.mem_cons_of_mem _ hh

theorem mem_eraseP_key_ne {β : Type} (id : Nat) :
    ∀ l : List (Nat × β), (l.map (fun e => e.1)).Nodup →
      ∀ p ∈ l.eraseP (fun e => decide (e.1 = id)), p.1 ≠ id := by
  intro l
  induction l with
  | nil => intro _ p hp; exact absurd hp (by simp)
  | cons e rest ih =>
    intro h p hp
    rw [List.map_cons, List.nodup_cons] at h
    by_cases hc : e.1 = id
    · rw [List.eraseP_cons_of_pos (by simp [hc])] at hp
      intro hpid
      apply h.1
      rw [hc, ← hpid]
      exact List.mem_map_of_mem _ hp
    · rw [List.eraseP_cons_of_neg (by simp [hc])] at hp
      rcases List.mem_cons.mp hp with rfl | hp2
      · exact hc
      · exact ih h.2 p hp2

theorem key_mem_eraseP {β : Type} (id k : Nat) (l : List (Nat × β))
    (hk : k ∈ l.map (fun e => e.1)) (hne : k ≠ id) :
    k ∈ (l.eraseP (fun e => decide (e.1 = id))).map (fun e => e.1) := by
  obtain ⟨e, he, hek⟩ := List.mem_map.mp hk
  refine List.mem_map.mpr ⟨e, ?_, hek⟩
  refine (List.mem_eraseP_of_neg ?_).mpr he
  simp only [decide_eq_true_eq]
  exact fun hh => hne (by rw [← hek, hh])

/-- C10: the origin mapping only points at live items: this holds of a
fresh load unconditionally, and is preserved by save and add; delete
preserves it as well once the origin keys are duplicate-free (as they
are in every reachable store). -/
theorem c10_origin_subset :
    (∀ (tl : TodoList) (files : List (List Char × Option (List Char))),
      OriginInv (tl.loadTodos files).1) ∧
    (∀ tl : TodoList, OriginInv tl → OriginInv tl.saveTodos.1) ∧
    (∀ (tl : TodoList) (text category : List Char),
      OriginInv tl → OriginInv (tl.addTodo text category).1) ∧
    (∀ (tl : TodoList) (id : Nat), OriginInv tl →
      (tl.todoFiles.map (fun e => e.1)).Nodup → OriginInv (tl.deleteTodo id)) := by
  refine ⟨?_, ?_, ?_, ?_⟩
  · intro tl files
    refine loadGo_originInv files _ ?_
    intro p hp
    exact absurd hp (by simp)
  · intro tl h p hp
    have hk := saveFold_keys tl.todos (tl.todoFiles, []) p.1 (List.mem_map_of_mem _ hp)
    show p.1 ∈ tl.todos.map (fun e => e.1)
    rcases hk with h2 | h2
    · obtain ⟨q, hq, hqk⟩ := List.mem_map.mp h2
      exact hqk ▸ h q hq
    · exact h2
  · intro tl text category h p hp
    show p.1 ∈ (tl.todos ++
      [(tl.nextId, mkTodoItem text false (if category = [] then uncat else category))]).map
        (fun e => e.1)
    rw [List.map_append]
    exact List.mem_append_left _ (h p hp)
  · intro tl id h hnd
    unfold TodoList.deleteTodo
    split
    · intro p hp
      have hne := mem_eraseP_key_ne id tl.todoFiles hnd p hp
      have hmem := h p (List.mem_of_mem_eraseP hp)
      exact key_mem_eraseP id p.1 tl.todos hmem hne
    · exact h

/-- Witness for C10: the delete clause applied to a concrete store whose
only item is removed, with both hypotheses checked by evaluation. -/
theorem c10_origin_subset_witness :
    OriginInv ⟨[], [(0, ⟨['a'], false, uncat⟩)], [(0, ['f'])], [uncat], 1⟩ ∧
    (([((0 : Nat), ['f'])].map (fun e => e.1)).Nodup) ∧
    OriginInv ((⟨[], [(0, ⟨['a'], false, uncat⟩)], [(0, ['f'])], [uncat], 1⟩ :
      TodoList).deleteTodo 0) :=
  ⟨by decide, by decide,
    c10_origin_subset.2.2.2 ⟨[], [(0, ⟨['a'], false, uncat⟩)], [(0, ['f'])], [uncat], 1⟩ 0
      (by decide) (by decide)⟩

end MdTodo
